import Mathlib

/-!
Verification of the DFtoolkit `sigtrack` electronic-signature tracker.

The development is a shallow embedding of the C sources:
  * `rangelist.c` (RangeList: ordered inclusive integer intervals),
  * `stringlist.c` (delimited audit records),
  * `esig.c` (signature state engine),
  * `exclusions.c` (exclusion table),
  * `main.c` (transaction grouper, dispatch loop, DRF writer),
  * `grammar.y` (the `visit *` production).

Linked lists become Lean lists (head-first order preserved); the intrusive
red-black trees (`CoveredPlateTree`, `FieldChangeTree`, `eSigNodeTree`)
become keyed association lists with find/replace-or-insert operations,
which preserves the find/insert semantics the engine relies on; C strings
that may be NULL become `Option String`; `long long` / `int` become `Int`
(the audit inputs and grammar outputs exercised here stay far from the
64-bit overflow boundary, and signed/unsigned conversions are noted where
they occur).
-/

/-! ### RangeList (rangelist.c)

A `RangeList` node holds `min` and `max`; the C code links nodes with a
`next` pointer, head first.  We embed it as a list of `(min, max)` pairs.
-/

abbrev RangeList := List (Int × Int)

/-- `rl_addtofront`: prepend a new interval, swapping the bounds when
`min > max` (the C code uses an XOR swap, which is an exact swap). -/
def rl_addtofront (l : RangeList) (mn mx : Int) : RangeList :=
  if mn > mx then (mx, mn) :: l else (mn, mx) :: l

/-- `rl_dup`: structural copy (identity on the functional embedding). -/
def rl_dup (l : RangeList) : RangeList := l

/-- `rl_min`: minimum over all interval minima, `0` for the empty list
(the C code starts with `v = 0, first = 1`). -/
def rl_min (l : RangeList) : Int :=
  (l.foldl (fun acc e =>
    if acc.2 || decide (acc.1 > e.1) then (e.1, false) else (acc.1, false))
    ((0 : Int), true)).1

/-- `rl_max`: maximum over all interval maxima, `0` for the empty list. -/
def rl_max (l : RangeList) : Int :=
  (l.foldl (fun acc e =>
    if acc.2 || decide (acc.1 < e.2) then (e.2, false) else (acc.1, false))
    ((0 : Int), true)).1

/-- `rl_width`: `Σ (max - min + 1)` over the intervals.  The C code
accumulates left to right; addition is commutative so the recursion below
computes the same sum. -/
def rl_width : RangeList → Int
  | [] => 0
  | e :: rest => rl_width rest + (e.2 - e.1) + 1

/-- `rl_contains`: linear scan, true iff some interval brackets `v`. -/
def rl_contains (l : RangeList) (v : Int) : Bool :=
  l.any (fun e => decide (v ≥ e.1) && decide (v ≤ e.2))

/-- The set of values contained in a RangeList, as a finite set of
integers; used to state cardinality claims about `rl_width`. -/
def rl_values : RangeList → Finset ℤ
  | [] => ∅
  | e :: rest => Finset.Icc e.1 e.2 ∪ rl_values rest

theorem rl_contains_iff (r : RangeList) (v : Int) :
    rl_contains r v = true ↔ ∃ e ∈ r, e.1 ≤ v ∧ v ≤ e.2 := by
  simp [rl_contains, List.any_eq_true, ge_iff_le]

theorem rl_values_mem (r : RangeList) (v : Int) :
    v ∈ rl_values r ↔ rl_contains r v = true := by
  induction r with
  | nil => simp [rl_values, rl_contains]
  | cons e rest ih =>
    simp [rl_values, rl_contains, List.any_cons, Finset.mem_union,
      Finset.mem_Icc] at *
    constructor
    · rintro (⟨h1, h2⟩ | h)
      · exact Or.inl ⟨h1, h2⟩
      · exact Or.inr (ih.mp h)
    · rintro (⟨h1, h2⟩ | h)
      · exact Or.inl ⟨h1, h2⟩
      · exact Or.inr (ih.mpr h)

theorem rl_values_disjoint (s : Finset ℤ) (r : RangeList)
    (h : ∀ e ∈ r, Disjoint s (Finset.Icc e.1 e.2)) :
    Disjoint s (rl_values r) := by
  induction r with
  | nil => simp [rl_values]
  | cons e rest ih =>
    simp only [rl_values, Finset.disjoint_union_right]
    exact ⟨h e (List.mem_cons_self e rest),
      ih (fun e' he' => h e' (List.mem_cons_of_mem e he'))⟩

theorem rl_width_eq_card (r : RangeList)
    (hwf : ∀ e ∈ r, e.1 ≤ e.2)
    (hdisj : List.Pairwise
      (fun a b => Disjoint (Finset.Icc a.1 a.2) (Finset.Icc b.1 b.2)) r) :
    rl_width r = ((rl_values r).card : Int) := by
  induction r with
  | nil => simp [rl_width, rl_values]
  | cons e rest ih =>
    rcases List.pairwise_cons.mp hdisj with ⟨hhead, htail⟩
    have hdis : Disjoint (Finset.Icc e.1 e.2) (rl_values rest) :=
      rl_values_disjoint _ _ (fun e' he' => hhead e' he')
    have hcard : (rl_values (e :: rest)).card
        = (Finset.Icc e.1 e.2).card + (rl_values rest).card := by
      simp [rl_values, Finset.card_union_of_disjoint hdis]
    have hIcc : ((Finset.Icc e.1 e.2).card : Int) = e.2 - e.1 + 1 := by
      rw [Int.card_Icc]
      have : (0 : Int) ≤ e.2 + 1 - e.1 := by
        have := hwf e (List.mem_cons_self e rest)
        omega
      omega
    have hrest := ih (fun e' he' => hwf e' (List.mem_cons_of_mem e he')) htail
    simp only [rl_width, hcard]
    push_cast
    omega

/-! ### Decimal printing (the `%lld` conversions of `snprintf`)

`rl_tostring` prints interval bounds with `snprintf(..., "%lld", v)`.
We embed the decimal conversion as a fuel-structured digit emitter (the
fuel argument only bounds the recursion; `natDecAux n n` always has
enough, since `n < 10 ^ n`). -/

def natDecAux : Nat → Nat → List Char
  | 0, _ => []
  | fuel + 1, n =>
    if n = 0 then [] else natDecAux fuel (n / 10) ++ [Nat.digitChar (n % 10)]

/-- Decimal digits of a natural number, most significant first; `"0"` for
zero, no leading zeros otherwise — exactly `%llu`. -/
def natDecChars (n : Nat) : List Char :=
  if n = 0 then ['0'] else natDecAux n n

/-- Decimal characters of an integer: `%lld` puts a minus sign before the
digits of the magnitude. -/
def intDecChars (v : Int) : List Char :=
  if v < 0 then '-' :: natDecChars (-v).toNat else natDecChars v.toNat

/-- The value accumulated by the C digit loop `v = v*10 + (*s - '0')`
over a run of characters, starting from `v`. -/
def evalDigits (v : Int) (cs : List Char) : Int :=
  cs.foldl (fun a c => a * 10 + ((c.toNat : Int) - 48)) v

theorem natDecAux_eq_digits (fuel : Nat) :
    ∀ n : Nat, n < 10 ^ fuel →
      natDecAux fuel n = (Nat.digits 10 n).reverse.map Nat.digitChar := by
  induction fuel with
  | zero =>
    intro n hn
    interval_cases n
    simp [natDecAux]
  | succ f ih =>
    intro n hn
    by_cases h0 : n = 0
    · subst h0; simp [natDecAux]
    · have hlt : n / 10 < 10 ^ f := by
        rw [Nat.div_lt_iff_lt_mul (by norm_num : 0 < 10)]
        calc n < 10 ^ (f + 1) := hn
        _ = 10 ^ f * 10 := by ring
      have hd := Nat.digits_def' (by norm_num : 1 < 10) (Nat.pos_of_ne_zero h0)
      simp [natDecAux, h0, ih _ hlt, hd]

theorem natDecChars_eq_digits (n : Nat) (h : n ≠ 0) :
    natDecChars n = (Nat.digits 10 n).reverse.map Nat.digitChar := by
  rw [natDecChars, if_neg h]
  exact natDecAux_eq_digits n n (Nat.lt_pow_self (by norm_num) n)

theorem digitChar_isDigit (d : Nat) (h : d < 10) :
    (Nat.digitChar d).isDigit = true := by
  interval_cases d <;> decide

theorem digitChar_val (d : Nat) (h : d < 10) :
    ((Nat.digitChar d).toNat : Int) - 48 = (d : Int) := by
  interval_cases d <;> decide

/-- C `isspace` in the POSIX locale: space, `\t`, `\n`, `\v` (0x0b),
`\f` (0x0c) and `\r`.  (`Char.isWhitespace` would omit `\v` and `\f`,
which the C tokenisers do skip.) -/
def c_isspace (c : Char) : Bool :=
  c == ' ' || c == '\t' || c == '\n' || c == '\x0b' || c == '\x0c'
    || c == '\r'

/-- A decimal digit character is not `isspace` whitespace and is none of
the punctuation characters the range parser reacts to. -/
theorem isDigit_not_special (c : Char) (h : c.isDigit = true) :
    c_isspace c = false ∧ c ≠ ',' ∧ c ≠ '-' ∧ c ≠ '*' := by
  refine ⟨?_, ?_, ?_, ?_⟩
  · by_contra hw
    simp only [Bool.not_eq_false, c_isspace, Bool.or_eq_true,
      beq_iff_eq] at hw
    rcases hw with ((((h1 | h1) | h1) | h1) | h1) | h1 <;>
      (subst h1; exact absurd h (by decide))
  · intro h1; subst h1; exact absurd h (by decide)
  · intro h1; subst h1; exact absurd h (by decide)
  · intro h1; subst h1; exact absurd h (by decide)

theorem natDecChars_all_digits (n : Nat) :
    ∀ c ∈ natDecChars n, c.isDigit = true := by
  intro c hc
  by_cases h0 : n = 0
  · subst h0
    simp only [natDecChars, if_pos, List.mem_singleton] at hc
    subst hc; decide
  · rw [natDecChars_eq_digits n h0] at hc
    rcases List.mem_map.mp hc with ⟨d, hd, rfl⟩
    exact digitChar_isDigit d
      (Nat.digits_lt_base (by norm_num) (List.mem_reverse.mp hd))

theorem natDecChars_ne_nil (n : Nat) : natDecChars n ≠ [] := by
  by_cases h0 : n = 0
  · subst h0; simp [natDecChars]
  · rw [natDecChars_eq_digits n h0]
    simp [Nat.digits_ne_nil_iff_ne_zero, h0]

theorem evalDigits_append (v : Int) (l1 l2 : List Char) :
    evalDigits v (l1 ++ l2) = evalDigits (evalDigits v l1) l2 :=
  List.foldl_append _ _ _ _

theorem evalDigits_digitsList (L : List Nat) (hL : ∀ d ∈ L, d < 10) :
    ∀ v : Int, evalDigits v (L.reverse.map Nat.digitChar)
      = v * 10 ^ L.length + (Nat.ofDigits 10 L : Nat) := by
  induction L with
  | nil => intro v; simp [evalDigits, Nat.ofDigits]
  | cons d L ih =>
    intro v
    have hd : d < 10 := hL d (List.mem_cons_self d L)
    have hL' : ∀ d' ∈ L, d' < 10 := fun d' hd' => hL d' (List.mem_cons_of_mem d hd')
    simp only [List.reverse_cons, List.map_append, List.map_cons, List.map_nil,
      evalDigits_append, ih hL']
    simp only [evalDigits, List.foldl_cons, List.foldl_nil]
    rw [digitChar_val d hd]
    simp only [Nat.ofDigits, List.length_cons]
    push_cast
    ring

theorem evalDigits_natDecChars (n : Nat) :
    evalDigits 0 (natDecChars n) = (n : Int) := by
  by_cases h0 : n = 0
  · subst h0; decide
  · rw [natDecChars_eq_digits n h0,
      evalDigits_digitsList _ (fun d hd => Nat.digits_lt_base (by norm_num) hd),
      Nat.ofDigits_digits]
    ring

/-! ### The range-string parser (`rl_fromstring`)

The C function tokenises the string in a single loop: whitespace is
skipped, a digit run is collected into `v`, and `,`/`-`/other characters
become `COMMA`/`DASH`/`ERROR` tokens.  A plain number opens a fresh
interval at the tail of the output list (`l` keeps pointing at it); a
number right after a `DASH` overwrites that interval's `max` (swapping if
inverted) and closes it; a `COMMA` closes it.  The embedding makes the
output list `acc` explicit (in reverse construction order) together with
`lopen`, which is the C condition `l != 0`.  A fuel argument makes the
recursion structural; every step consumes at least one character, so
`length + 1` fuel always suffices. -/

inductive Token
  | NUMBER
  | COMMA
  | DASH
  | ERROR
  | EOL
deriving DecidableEq

/-- The digit-run loop `for (;isdigit(*s);s++) v = (v*10) + (*s-'0');`. -/
def lexNumber : Int → List Char → Int × List Char
  | v, [] => (v, [])
  | v, c :: cs =>
    if c.isDigit then lexNumber (v * 10 + ((c.toNat : Int) - 48)) cs
    else (v, c :: cs)

def rl_parse (fuel : Nat) (s : List Char) (last : Token) (lopen : Bool)
    (acc : RangeList) : Option RangeList :=
  match fuel, s with
  | _, [] => if last = Token.NUMBER then some acc.reverse else none
  | 0, _ :: _ => none
  | fuel + 1, c :: cs =>
    if c_isspace c then rl_parse fuel cs last lopen acc
    else if c.isDigit then
      let p := lexNumber 0 (c :: cs)
      if last = Token.DASH then
        match lopen, acc with
        | true, (mn, _) :: tl =>
          rl_parse fuel p.2 Token.NUMBER false
            ((if mn > p.1 then (p.1, mn) else (mn, p.1)) :: tl)
        | _, _ => none
      else
        rl_parse fuel p.2 Token.NUMBER true ((p.1, p.1) :: acc)
    else if c = ',' then rl_parse fuel cs Token.COMMA false acc
    else if c = '-' then rl_parse fuel cs Token.DASH lopen acc
    else none

/-- `rl_fromstring`: empty string is the empty set, `"*"` alone is the
single interval `[0, 0x7FFFFFFF]`, anything else goes through the token
loop; `none` is the C return value `-1`. -/
def rl_fromstring (s : String) : Option RangeList :=
  if s = "" then some []
  else if s = "*" then some [((0 : Int), 2147483647)]
  else rl_parse (s.toList.length + 1) s.toList Token.NUMBER false []

/-- `rl_tostring` element: `min` when the interval is a point, otherwise
`min-max`. -/
def rl_elem_chars (e : Int × Int) : List Char :=
  if e.1 = e.2 then intDecChars e.1
  else intDecChars e.1 ++ '-' :: intDecChars e.2

def rl_tostring_chars : RangeList → List Char
  | [] => []
  | [e] => rl_elem_chars e
  | e :: rest => rl_elem_chars e ++ ',' :: rl_tostring_chars rest

def rl_tostring (l : RangeList) : String := String.mk (rl_tostring_chars l)

theorem lexNumber_cons_digit (v : Int) (c : Char) (cs : List Char)
    (h : c.isDigit = true) :
    lexNumber v (c :: cs) = lexNumber (v * 10 + ((c.toNat : Int) - 48)) cs := by
  simp [lexNumber, h]

theorem lexNumber_length (v : Int) (cs : List Char) :
    (lexNumber v cs).2.length ≤ cs.length := by
  induction cs generalizing v with
  | nil => simp [lexNumber]
  | cons c cs ih =>
    by_cases h : c.isDigit = true
    · rw [lexNumber_cons_digit _ _ _ h]
      exact le_trans (ih _) (by simp)
    · simp [lexNumber, h]

/-- Running the digit loop over a digit run followed by a non-digit (or
the end of input) yields the accumulated value and the untouched rest. -/
theorem lexNumber_run (ds : List Char) :
    ∀ (v : Int) (rest : List Char), (∀ c ∈ ds, c.isDigit = true) →
      (∀ c, rest.head? = some c → c.isDigit = false) →
      lexNumber v (ds ++ rest) = (evalDigits v ds, rest) := by
  induction ds with
  | nil =>
    intro v rest _ hrest
    cases rest with
    | nil => simp [lexNumber, evalDigits]
    | cons c cs =>
      have : c.isDigit = false := hrest c rfl
      simp [lexNumber, this, evalDigits]
  | cons d ds ih =>
    intro v rest hds hrest
    have hd : d.isDigit = true := hds d (List.mem_cons_self d ds)
    rw [List.cons_append, lexNumber_cons_digit _ _ _ hd,
      ih _ _ (fun c hc => hds c (List.mem_cons_of_mem d hc)) hrest]
    simp [evalDigits]

/-- The digit loop consumes a (possibly empty) all-digit prefix. -/
theorem lexNumber_decompose (cs : List Char) :
    ∀ v : Int, ∃ ds, cs = ds ++ (lexNumber v cs).2 ∧
      ∀ c ∈ ds, c.isDigit = true := by
  induction cs with
  | nil => intro v; exact ⟨[], by simp [lexNumber]⟩
  | cons c cs ih =>
    intro v
    by_cases h : c.isDigit = true
    · rw [lexNumber_cons_digit _ _ _ h]
      rcases ih (v * 10 + ((c.toNat : Int) - 48)) with ⟨ds, heq, hds⟩
      refine ⟨c :: ds, ?_, ?_⟩
      · rw [List.cons_append]; exact congrArg (c :: ·) heq
      · intro c' hc'
        rcases List.mem_cons.mp hc' with rfl | hmem
        · exact h
        · exact hds c' hmem
    · exact ⟨[], by simp [lexNumber, h]⟩

theorem rl_parse_nil (fuel : Nat) (last : Token) (lopen : Bool)
    (acc : RangeList) :
    rl_parse fuel [] last lopen acc
      = if last = Token.NUMBER then some acc.reverse else none := by
  cases fuel <;> rfl

theorem rl_parse_fuel_mono (fuel : Nat) :
    ∀ (fuel' : Nat) (s : List Char) (last : Token) (lopen : Bool)
      (acc : RangeList), s.length < fuel → s.length < fuel' →
      rl_parse fuel s last lopen acc = rl_parse fuel' s last lopen acc := by
  induction fuel with
  | zero => intro fuel' s last lopen acc h _; exact absurd h (by omega)
  | succ f ih =>
    intro fuel' s last lopen acc h h'
    cases s with
    | nil => rw [rl_parse_nil, rl_parse_nil]
    | cons c cs =>
      cases fuel' with
      | zero => exact absurd h' (by omega)
      | succ f' =>
        have hcs : cs.length < f := by simp at h; omega
        have hcs' : cs.length < f' := by simp at h'; omega
        simp only [rl_parse]
        by_cases hws : c_isspace c = true
        · simp only [if_pos hws]; exact ih f' cs last lopen acc hcs hcs'
        · simp only [if_neg hws]
          by_cases hdg : c.isDigit = true
          · have hlex : (lexNumber 0 (c :: cs)).2.length ≤ cs.length := by
              rw [lexNumber_cons_digit _ _ _ hdg]; exact lexNumber_length _ _
            simp only [if_pos hdg]
            by_cases hl : last = Token.DASH
            · simp only [if_pos hl]
              cases lopen with
              | false => rfl
              | true =>
                cases acc with
                | nil => rfl
                | cons e tl =>
                  cases e with
                  | mk mn mx =>
                    exact ih f' _ _ _ _ (by omega) (by omega)
            · simp only [if_neg hl]
              exact ih f' _ _ _ _ (by omega) (by omega)
          · simp only [if_neg hdg]
            by_cases hc : c = ','
            · simp only [if_pos hc]; exact ih f' cs _ _ _ hcs hcs'
            · simp only [if_neg hc]
              by_cases hc' : c = '-'
              · simp only [if_pos hc']; exact ih f' cs _ _ _ hcs hcs'
              · simp only [if_neg hc']

/-- Consuming one leading decimal number when the previous token was not
a `DASH`: a fresh point interval is opened. -/
theorem rl_parse_number (f : Nat) (n : Nat) (rest : List Char) (last : Token)
    (lopen : Bool) (acc : RangeList) (hlast : last ≠ Token.DASH)
    (hrest : ∀ c, rest.head? = some c → c.isDigit = false) :
    rl_parse (f + 1) (natDecChars n ++ rest) last lopen acc
      = rl_parse f rest Token.NUMBER true (((n : Int), (n : Int)) :: acc) := by
  obtain ⟨c, cs', hsplit⟩ : ∃ c cs', natDecChars n = c :: cs' := by
    cases hh : natDecChars n with
    | nil => exact absurd hh (natDecChars_ne_nil n)
    | cons c cs' => exact ⟨c, cs', rfl⟩
  have hcdig : c.isDigit = true := by
    apply natDecChars_all_digits n
    rw [hsplit]; exact List.mem_cons_self c cs'
  have hlex : lexNumber 0 (natDecChars n ++ rest) = ((n : Int), rest) := by
    rw [lexNumber_run (natDecChars n) 0 rest (natDecChars_all_digits n) hrest,
      evalDigits_natDecChars]
  have hws : ¬(c_isspace c = true) := by
    simp [(isDigit_not_special c hcdig).1]
  rw [hsplit] at hlex ⊢
  rw [List.cons_append]
  simp only [rl_parse, if_neg hws, if_pos hcdig, if_neg hlast]
  rw [← List.cons_append, hlex]

/-- Consuming one leading decimal number right after a `DASH` while an
interval is open: its `max` is overwritten (swapping when inverted) and
the interval is closed. -/
theorem rl_parse_dash_number (f : Nat) (n : Nat) (rest : List Char)
    (mn mx : Int) (tl : RangeList)
    (hrest : ∀ c, rest.head? = some c → c.isDigit = false) :
    rl_parse (f + 1) (natDecChars n ++ rest) Token.DASH true ((mn, mx) :: tl)
      = rl_parse f rest Token.NUMBER false
          ((if mn > (n : Int) then ((n : Int), mn) else (mn, (n : Int))) :: tl) := by
  obtain ⟨c, cs', hsplit⟩ : ∃ c cs', natDecChars n = c :: cs' := by
    cases hh : natDecChars n with
    | nil => exact absurd hh (natDecChars_ne_nil n)
    | cons c cs' => exact ⟨c, cs', rfl⟩
  have hcdig : c.isDigit = true := by
    apply natDecChars_all_digits n
    rw [hsplit]; exact List.mem_cons_self c cs'
  have hlex : lexNumber 0 (natDecChars n ++ rest) = ((n : Int), rest) := by
    rw [lexNumber_run (natDecChars n) 0 rest (natDecChars_all_digits n) hrest,
      evalDigits_natDecChars]
  have hws : ¬(c_isspace c = true) := by
    simp [(isDigit_not_special c hcdig).1]
  rw [hsplit] at hlex ⊢
  rw [List.cons_append]
  simp only [rl_parse, if_neg hws, if_pos hcdig,
    if_pos (rfl : Token.DASH = Token.DASH)]
  rw [← List.cons_append, hlex]
  simp

theorem rl_parse_comma (f : Nat) (rest : List Char) (last : Token)
    (lopen : Bool) (acc : RangeList) :
    rl_parse (f + 1) (',' :: rest) last lopen acc
      = rl_parse f rest Token.COMMA false acc := by
  simp [rl_parse, c_isspace]

theorem rl_parse_dash (f : Nat) (rest : List Char) (last : Token)
    (lopen : Bool) (acc : RangeList) :
    rl_parse (f + 1) ('-' :: rest) last lopen acc
      = rl_parse f rest Token.DASH lopen acc := by
  simp [rl_parse, c_isspace]

theorem intDecChars_nonneg (v : Int) (h : 0 ≤ v) :
    intDecChars v = natDecChars v.toNat := by
  simp [intDecChars, not_lt.mpr h]

theorem natDecChars_length_pos (n : Nat) : 0 < (natDecChars n).length :=
  List.length_pos.mpr (natDecChars_ne_nil n)

/-- Parsing one printed element with nothing after it: the element is
appended (in reverse construction order) and the input is accepted. -/
theorem rl_parse_elem_nil (e : Int × Int) (h1 : 0 ≤ e.1) (h12 : e.1 ≤ e.2)
    (last : Token) (hlast : last ≠ Token.DASH) (lopen : Bool)
    (acc : RangeList) :
    rl_parse ((rl_elem_chars e).length + 1) (rl_elem_chars e) last lopen acc
      = some ((e :: acc).reverse) := by
  by_cases heq : e.1 = e.2
  · have hchars : rl_elem_chars e = natDecChars e.1.toNat ++ [] := by
      simp [rl_elem_chars, if_pos heq, intDecChars_nonneg e.1 h1]
    rw [hchars, rl_parse_number _ _ [] last lopen acc hlast (by intro c hc; simp at hc),
      rl_parse_nil, if_pos rfl, Int.toNat_of_nonneg h1]
    have : ((e.1, e.1) : Int × Int) = e := by
      cases e; simp_all
    rw [this]
  · have hlt : e.1 < e.2 := lt_of_le_of_ne h12 heq
    have h2 : (0 : Int) ≤ e.2 := le_trans h1 h12
    have hchars : rl_elem_chars e
        = natDecChars e.1.toNat
          ++ '-' :: (natDecChars e.2.toNat ++ []) := by
      simp [rl_elem_chars, if_neg heq, intDecChars_nonneg e.1 h1,
        intDecChars_nonneg e.2 h2]
    rw [hchars,
      rl_parse_number _ _ ('-' :: (natDecChars e.2.toNat ++ []))
        last lopen acc hlast (by intro c hc; simp at hc; subst hc; decide),
      Int.toNat_of_nonneg h1]
    have hm := rl_parse_fuel_mono
      ((natDecChars e.1.toNat
        ++ '-' :: (natDecChars e.2.toNat ++ [])).length)
      (((natDecChars e.2.toNat ++ []).length + 1) + 1)
      ('-' :: (natDecChars e.2.toNat ++ []))
      Token.NUMBER true ((e.1, e.1) :: acc)
      (by have := natDecChars_length_pos e.1.toNat; simp; omega)
      (by simp)
    rw [hm, rl_parse_dash]
    have hstep := rl_parse_dash_number ((natDecChars e.2.toNat ++ []).length)
      e.2.toNat [] e.1 e.1 acc (by intro c hc; simp at hc)
    rw [Int.toNat_of_nonneg h2] at hstep
    rw [hstep, rl_parse_nil, if_pos rfl, if_neg (not_lt.mpr (le_of_lt hlt))]

/-- Parsing one printed element followed by a comma: the element is
appended and parsing resumes after the comma. -/
theorem rl_parse_elem_comma (e : Int × Int) (h1 : 0 ≤ e.1) (h12 : e.1 ≤ e.2)
    (tail : List Char) (last : Token) (hlast : last ≠ Token.DASH)
    (lopen : Bool) (acc : RangeList) :
    rl_parse ((rl_elem_chars e ++ ',' :: tail).length + 1)
        (rl_elem_chars e ++ ',' :: tail) last lopen acc
      = rl_parse (tail.length + 1) tail Token.COMMA false (e :: acc) := by
  by_cases heq : e.1 = e.2
  · have hchars : rl_elem_chars e ++ ',' :: tail
        = natDecChars e.1.toNat ++ ',' :: tail := by
      simp [rl_elem_chars, if_pos heq, intDecChars_nonneg e.1 h1]
    rw [hchars,
      rl_parse_number _ _ (',' :: tail) last lopen acc hlast
        (by intro c hc; simp at hc; subst hc; decide),
      Int.toNat_of_nonneg h1]
    have hm := rl_parse_fuel_mono
      ((natDecChars e.1.toNat ++ ',' :: tail).length) ((tail.length + 1) + 1)
      (',' :: tail) Token.NUMBER true ((e.1, e.1) :: acc)
      (by have := natDecChars_length_pos e.1.toNat; simp; omega)
      (by simp)
    rw [hm, rl_parse_comma]
    have : ((e.1, e.1) : Int × Int) = e := by cases e; simp_all
    rw [this]
  · have hlt : e.1 < e.2 := lt_of_le_of_ne h12 heq
    have h2 : (0 : Int) ≤ e.2 := le_trans h1 h12
    have hchars : rl_elem_chars e ++ ',' :: tail
        = natDecChars e.1.toNat
          ++ '-' :: (natDecChars e.2.toNat ++ ',' :: tail) := by
      simp [rl_elem_chars, if_neg heq, intDecChars_nonneg e.1 h1,
        intDecChars_nonneg e.2 h2]
    rw [hchars,
      rl_parse_number _ _ ('-' :: (natDecChars e.2.toNat ++ ',' :: tail))
        last lopen acc hlast (by intro c hc; simp at hc; subst hc; decide),
      Int.toNat_of_nonneg h1]
    have hm := rl_parse_fuel_mono
      ((natDecChars e.1.toNat
        ++ '-' :: (natDecChars e.2.toNat ++ ',' :: tail)).length)
      (((natDecChars e.2.toNat ++ ',' :: tail).length + 1) + 1)
      ('-' :: (natDecChars e.2.toNat ++ ',' :: tail))
      Token.NUMBER true ((e.1, e.1) :: acc)
      (by have := natDecChars_length_pos e.1.toNat; simp; omega)
      (by simp)
    rw [hm, rl_parse_dash]
    have hstep := rl_parse_dash_number
      ((natDecChars e.2.toNat ++ ',' :: tail).length)
      e.2.toNat (',' :: tail) e.1 e.1 acc
      (by intro c hc; simp at hc; subst hc; decide)
    rw [Int.toNat_of_nonneg h2] at hstep
    rw [hstep, if_neg (not_lt.mpr (le_of_lt hlt))]
    have hm2 := rl_parse_fuel_mono
      ((natDecChars e.2.toNat ++ ',' :: tail).length) ((tail.length + 1) + 1)
      (',' :: tail) Token.NUMBER false ((e.1, e.2) :: acc)
      (by have := natDecChars_length_pos e.2.toNat; simp; omega)
      (by simp)
    rw [hm2, rl_parse_comma]

theorem mem_of_getLast?_some {α : Type} {l : List α} {a : α}
    (h : l.getLast? = some a) : a ∈ l := by
  rcases List.mem_getLast?_eq_getLast (Option.mem_def.mpr h) with ⟨hne, rfl⟩
  exact List.getLast_mem hne

/-- Any accepted input consists only of digits, whitespace, commas and
dashes (anything else takes the `ERROR` branch and the parse fails). -/
theorem rl_parse_charset (fuel : Nat) :
    ∀ (s : List Char) (last : Token) (lopen : Bool) (acc r : RangeList),
      rl_parse fuel s last lopen acc = some r →
      ∀ c ∈ s, c.isDigit = true ∨ c_isspace c = true ∨ c = ',' ∨ c = '-' := by
  induction fuel with
  | zero =>
    intro s last lopen acc r hp c hc
    cases s with
    | nil => simp at hc
    | cons c0 cs => exact Option.noConfusion hp
  | succ f ih =>
    intro s last lopen acc r hp c hc
    cases s with
    | nil => simp at hc
    | cons c0 cs =>
      by_cases hws : c_isspace c0 = true
      · rw [show rl_parse (f + 1) (c0 :: cs) last lopen acc
            = rl_parse f cs last lopen acc from by
          simp only [rl_parse, if_pos hws]] at hp
        rcases List.mem_cons.mp hc with rfl | hmem
        · exact Or.inr (Or.inl hws)
        · exact ih cs last lopen acc r hp c hmem
      · by_cases hdg : c0.isDigit = true
        · obtain ⟨ds, hsplit, hds⟩ := lexNumber_decompose (c0 :: cs) 0
          have hp' : ∃ last' lopen' acc',
              rl_parse f (lexNumber 0 (c0 :: cs)).2 last' lopen' acc'
                = some r := by
            revert hp
            simp only [rl_parse, if_neg hws, if_pos hdg]
            by_cases hl : last = Token.DASH
            · simp only [if_pos hl]
              cases lopen with
              | false =>
                cases acc with
                | nil => intro hp; exact Option.noConfusion hp
                | cons e tl => intro hp; exact Option.noConfusion hp
              | true =>
                cases acc with
                | nil => intro hp; exact Option.noConfusion hp
                | cons e tl =>
                  cases e with
                  | mk mn mx => intro hp; exact ⟨_, _, _, hp⟩
            · simp only [if_neg hl]
              intro hp; exact ⟨_, _, _, hp⟩
          obtain ⟨last', lopen', acc', hp'⟩ := hp'
          rw [hsplit] at hc
          rcases List.mem_append.mp hc with hmem | hmem
          · exact Or.inl (hds c hmem)
          · exact ih _ _ _ _ _ hp' c hmem
        · by_cases hcm : c0 = ','
          · rw [show rl_parse (f + 1) (c0 :: cs) last lopen acc
                = rl_parse f cs Token.COMMA false acc from by
              simp only [rl_parse, if_neg hws, if_neg hdg, if_pos hcm]] at hp
            rcases List.mem_cons.mp hc with rfl | hmem
            · exact Or.inr (Or.inr (Or.inl hcm))
            · exact ih cs _ _ _ _ hp c hmem
          · by_cases hdh : c0 = '-'
            · rw [show rl_parse (f + 1) (c0 :: cs) last lopen acc
                  = rl_parse f cs Token.DASH lopen acc from by
                simp only [rl_parse, if_neg hws, if_neg hdg, if_neg hcm,
                  if_pos hdh]] at hp
              rcases List.mem_cons.mp hc with rfl | hmem
              · exact Or.inr (Or.inr (Or.inr hdh))
              · exact ih cs _ _ _ _ hp c hmem
            · rw [show rl_parse (f + 1) (c0 :: cs) last lopen acc = none from by
                simp only [rl_parse, if_neg hws, if_neg hdg, if_neg hcm,
                  if_neg hdh]] at hp
              exact Option.noConfusion hp

/-- An input whose final character is a dash is always rejected: the loop
ends with `last == DASH`, or fails before reaching the end. -/
theorem rl_parse_last_dash (fuel : Nat) :
    ∀ (s : List Char) (last : Token) (lopen : Bool) (acc : RangeList),
      s.getLast? = some '-' → rl_parse fuel s last lopen acc = none := by
  induction fuel with
  | zero =>
    intro s last lopen acc hl
    cases s with
    | nil => simp at hl
    | cons c0 cs => rfl
  | succ f ih =>
    intro s last lopen acc hl
    cases s with
    | nil => simp at hl
    | cons c0 cs =>
      cases cs with
      | nil =>
        have hc0 : c0 = '-' := by simpa using hl
        subst hc0
        rw [rl_parse_dash, rl_parse_nil]
        simp
      | cons c1 cs' =>
        have hl' : (c1 :: cs').getLast? = some '-' := by
          rw [List.getLast?_cons_cons] at hl; exact hl
        by_cases hws : c_isspace c0 = true
        · rw [show rl_parse (f + 1) (c0 :: c1 :: cs') last lopen acc
              = rl_parse f (c1 :: cs') last lopen acc from by
            simp only [rl_parse, if_pos hws]]
          exact ih _ _ _ _ hl'
        · by_cases hdg : c0.isDigit = true
          · obtain ⟨ds, hsplit, hds⟩ := lexNumber_decompose (c0 :: c1 :: cs') 0
            have hrest_last :
                (lexNumber 0 (c0 :: c1 :: cs')).2.getLast? = some '-' := by
              cases hr : (lexNumber 0 (c0 :: c1 :: cs')).2 with
              | nil =>
                rw [hr, List.append_nil] at hsplit
                have hmem : '-' ∈ (c0 :: c1 :: cs') :=
                  mem_of_getLast?_some hl
                rw [hsplit] at hmem
                exact absurd (hds '-' hmem) (by decide)
              | cons r rs =>
                have : ((ds ++ (lexNumber 0 (c0 :: c1 :: cs')).2).getLast?)
                    = some '-' := by rw [← hsplit]; exact hl
                rw [List.getLast?_append_of_ne_nil ds (by rw [hr]; simp)]
                  at this
                rw [← hr]
                exact this
            simp only [rl_parse, if_neg hws, if_pos hdg]
            by_cases hlast : last = Token.DASH
            · simp only [if_pos hlast]
              cases lopen with
              | false =>
                cases acc with
                | nil => rfl
                | cons e tl => rfl
              | true =>
                cases acc with
                | nil => rfl
                | cons e tl =>
                  cases e with
                  | mk mn mx => exact ih _ _ _ _ hrest_last
            · simp only [if_neg hlast]
              exact ih _ _ _ _ hrest_last
          · by_cases hcm : c0 = ','
            · rw [show rl_parse (f + 1) (c0 :: c1 :: cs') last lopen acc
                  = rl_parse f (c1 :: cs') Token.COMMA false acc from by
                simp only [rl_parse, if_neg hws, if_neg hdg, if_pos hcm]]
              exact ih _ _ _ _ hl'
            · by_cases hdh : c0 = '-'
              · rw [show rl_parse (f + 1) (c0 :: c1 :: cs') last lopen acc
                    = rl_parse f (c1 :: cs') Token.DASH lopen acc from by
                  simp only [rl_parse, if_neg hws, if_neg hdg, if_neg hcm,
                    if_pos hdh]]
                exact ih _ _ _ _ hl'
              · simp only [rl_parse, if_neg hws, if_neg hdg, if_neg hcm,
                  if_neg hdh]

/-- Parsing the printed form of a nonempty range list with nonnegative
canonical intervals appends exactly those intervals. -/
theorem rl_parse_tostring (r : RangeList) :
    ∀ (last : Token) (lopen : Bool) (acc : RangeList),
      r ≠ [] → (∀ e ∈ r, 0 ≤ e.1 ∧ e.1 ≤ e.2) → last ≠ Token.DASH →
      rl_parse ((rl_tostring_chars r).length + 1) (rl_tostring_chars r)
          last lopen acc
        = some (acc.reverse ++ r) := by
  induction r with
  | nil => intro _ _ _ h; exact absurd rfl h
  | cons e rest ih =>
    intro last lopen acc _ hwf hlast
    have he := hwf e (List.mem_cons_self e rest)
    cases rest with
    | nil =>
      have hchars : rl_tostring_chars [e] = rl_elem_chars e := rfl
      rw [hchars, rl_parse_elem_nil e he.1 he.2 last hlast lopen acc]
      simp
    | cons e2 rest' =>
      have hchars : rl_tostring_chars (e :: e2 :: rest')
          = rl_elem_chars e ++ ',' :: rl_tostring_chars (e2 :: rest') := rfl
      rw [hchars, rl_parse_elem_comma e he.1 he.2 _ last hlast lopen acc,
        ih Token.COMMA false (e :: acc) (by simp)
          (fun e' he' => hwf e' (List.mem_cons_of_mem e he')) (by simp)]
      simp

theorem rl_elem_chars_split (e : Int × Int) (h1 : 0 ≤ e.1) :
    ∃ cs, rl_elem_chars e = natDecChars e.1.toNat ++ cs := by
  by_cases heq : e.1 = e.2
  · exact ⟨[], by simp [rl_elem_chars, if_pos heq, intDecChars_nonneg e.1 h1]⟩
  · exact ⟨'-' :: intDecChars e.2,
      by simp [rl_elem_chars, if_neg heq, intDecChars_nonneg e.1 h1]⟩

theorem rl_tostring_chars_split (e : Int × Int) (rest : RangeList)
    (h1 : 0 ≤ e.1) :
    ∃ cs, rl_tostring_chars (e :: rest)
      = natDecChars e.1.toNat ++ cs := by
  obtain ⟨cs0, hcs0⟩ := rl_elem_chars_split e h1
  cases rest with
  | nil => exact ⟨cs0, hcs0⟩
  | cons e2 rest' =>
    refine ⟨cs0 ++ ',' :: rl_tostring_chars (e2 :: rest'), ?_⟩
    have : rl_tostring_chars (e :: e2 :: rest')
        = rl_elem_chars e ++ ',' :: rl_tostring_chars (e2 :: rest') := rfl
    rw [this, hcs0, List.append_assoc]

/-- C6 counterexample: `[-1, -1]` is canonical in the claim's sense
(`min ≤ max`), but its printed form `"-1"` is rejected by
`rl_fromstring` — the leading `-` becomes a `DASH` token with no open
interval, so the round trip does not return the original RangeSet. -/
theorem claim6_counterexample :
    rl_fromstring (rl_tostring [((-1 : Int), (-1 : Int))])
      ≠ some [((-1 : Int), (-1 : Int))] := by
  decide

/-- C6 (amended): for every canonical RangeSet whose bounds are all
nonnegative (each interval has `0 ≤ min ≤ max`), `fromString (toString r)`
succeeds and returns a RangeSet with interval structure and order
identical to `r`. -/
theorem claim6_roundtrip_amended (r : RangeList)
    (hr : ∀ e ∈ r, 0 ≤ e.1 ∧ e.1 ≤ e.2) :
    rl_fromstring (rl_tostring r) = some r := by
  cases r with
  | nil => decide
  | cons e rest =>
    have h1 : (0 : Int) ≤ e.1 := (hr e (List.mem_cons_self e rest)).1
    obtain ⟨cs, hcs⟩ := rl_tostring_chars_split e rest h1
    obtain ⟨c, cs', hnat⟩ : ∃ c cs', natDecChars e.1.toNat = c :: cs' := by
      cases hh : natDecChars e.1.toNat with
      | nil => exact absurd hh (natDecChars_ne_nil e.1.toNat)
      | cons c cs' => exact ⟨c, cs', rfl⟩
    have hdig : c.isDigit = true := by
      apply natDecChars_all_digits e.1.toNat
      rw [hnat]; exact List.mem_cons_self c cs'
    have hdata : (rl_tostring (e :: rest)).data
        = rl_tostring_chars (e :: rest) := rfl
    have hne : rl_tostring (e :: rest) ≠ "" := by
      intro h
      have h0 : rl_tostring_chars (e :: rest) = [] := by
        rw [← hdata, h]
      rw [hcs, hnat] at h0
      simp at h0
    have hnstar : ¬(rl_tostring (e :: rest) = ("*")) := by
      intro h
      have h0 : rl_tostring_chars (e :: rest) = ['*'] := by
        rw [← hdata, h]
      rw [hcs, hnat, List.cons_append] at h0
      have hcstar : c = '*' := (List.cons_eq_cons.mp h0).1
      subst hcstar
      exact absurd hdig (by decide)
    rw [rl_fromstring, if_neg hne, if_neg hnstar]
    have htl : (rl_tostring (e :: rest)).toList
        = rl_tostring_chars (e :: rest) := rfl
    rw [htl,
      rl_parse_tostring (e :: rest) Token.NUMBER false [] (by simp) hr
        (by simp)]
    simp

/-- C6 witness: the canonical nonnegative RangeSet `1-3,5,7-10` (the
spec's own S7 example) round-trips. -/
theorem claim6_witness :
    (∀ e ∈ ([((1 : Int), 3), (5, 5), (7, 10)] : RangeList),
      0 ≤ e.1 ∧ e.1 ≤ e.2) ∧
    rl_fromstring (rl_tostring [((1 : Int), 3), (5, 5), (7, 10)])
      = some [((1 : Int), 3), (5, 5), (7, 10)] :=
  ⟨by decide, claim6_roundtrip_amended _ (by decide)⟩

/-- C7 counterexample: the RangeSet with the interval `[1,2]` listed
twice has `width() = 4`, but only two distinct values are contained, so
`width()` is not the cardinality of the contained-value set. -/
theorem claim7_counterexample :
    rl_width [((1 : Int), 2), (1, 2)] = 4 ∧
    ((rl_values [((1 : Int), 2), (1, 2)]).card : Int) = 2 ∧
    ¬(rl_width [((1 : Int), 2), (1, 2)]
        = ((rl_values [((1 : Int), 2), (1, 2)]).card : Int)) := by
  refine ⟨by decide, ?_, ?_⟩
  · have : rl_values [((1 : Int), 2), (1, 2)] = Finset.Icc 1 2 := by
      simp [rl_values]
    rw [this, Int.card_Icc]
    decide
  · intro h
    rw [show rl_width [((1 : Int), 2), (1, 2)] = 4 from by decide] at h
    have : rl_values [((1 : Int), 2), (1, 2)] = Finset.Icc 1 2 := by
      simp [rl_values]
    rw [this, Int.card_Icc] at h
    exact absurd h (by decide)

/-- C7 (amended): `contains(v)` is true iff some interval of `r`
satisfies `min ≤ v ≤ max` (this half holds for every RangeSet), and
`width()` equals the cardinality of the contained-value set provided the
intervals are canonical (`min ≤ max`) and pairwise disjoint. -/
theorem claim7_contains_width_amended :
    (∀ (r : RangeList) (v : Int),
      rl_contains r v = true ↔ ∃ e ∈ r, e.1 ≤ v ∧ v ≤ e.2) ∧
    (∀ (r : RangeList) (v : Int),
      v ∈ rl_values r ↔ rl_contains r v = true) ∧
    (∀ r : RangeList, (∀ e ∈ r, e.1 ≤ e.2) →
      List.Pairwise
        (fun a b => Disjoint (Finset.Icc a.1 a.2) (Finset.Icc b.1 b.2)) r →
      rl_width r = ((rl_values r).card : Int)) :=
  ⟨rl_contains_iff, rl_values_mem, rl_width_eq_card⟩

/-- C7 witness: on the disjoint canonical RangeSet `1-3,5,7-10`,
`contains` and `width` behave as claimed (`width = 8`,
`contains 4 = false`, `contains 8 = true` — the spec's S7 example). -/
theorem claim7_witness :
    (rl_contains [((1 : Int), 3), (5, 5), (7, 10)] 8 = true
        ↔ ∃ e ∈ ([((1 : Int), 3), (5, 5), (7, 10)] : RangeList),
            e.1 ≤ 8 ∧ 8 ≤ e.2) ∧
    rl_width [((1 : Int), 3), (5, 5), (7, 10)]
      = ((rl_values [((1 : Int), 3), (5, 5), (7, 10)]).card : Int) := by
  constructor
  · exact claim7_contains_width_amended.1 _ 8
  · exact claim7_contains_width_amended.2.2 _ (by decide)
      (by
        refine List.Pairwise.cons ?_ (List.Pairwise.cons ?_ ?_)
        · intro b hb
          rcases List.mem_cons.mp hb with rfl | hb
          · rw [Finset.disjoint_left]
            intro a ha hb
            simp [Finset.mem_Icc] at ha hb
            omega
          · rcases List.mem_cons.mp hb with rfl | hb
            · rw [Finset.disjoint_left]
              intro a ha hb
              simp [Finset.mem_Icc] at ha hb
              omega
            · simp at hb
        · intro b hb
          rcases List.mem_cons.mp hb with rfl | hb
          · rw [Finset.disjoint_left]
            intro a ha hb
            simp [Finset.mem_Icc] at ha hb
            omega
          · simp at hb
        · simp)

/-- C8: `rl_fromstring` grammar behaviour — `"*"` alone yields the
single interval `[0, 2^31 - 1]`, the empty string yields the empty set
without error, any input ending in `-` fails, and any input (other than
the wildcard) containing a character that is not a digit, whitespace,
`,` or `-` fails. -/
theorem claim8_fromstring_grammar :
    rl_fromstring ("*") = some [((0 : Int), 2 ^ 31 - 1)] ∧
    rl_fromstring ("") = some [] ∧
    (∀ s : String, s.toList.getLast? = some '-' → rl_fromstring s = none) ∧
    (∀ s : String, ¬(s = ("*")) →
      (∃ c ∈ s.toList,
        ¬(c.isDigit = true ∨ c_isspace c = true ∨ c = ',' ∨ c = '-')) →
      rl_fromstring s = none) := by
  refine ⟨by decide, by decide, ?_, ?_⟩
  · intro s hlast
    have hne : ¬(s = "") := by
      intro h; subst h; simp at hlast
    rw [rl_fromstring, if_neg hne]
    have hnstar : ¬(s = ("*")) := by
      intro h; subst h
      simp at hlast
    rw [if_neg hnstar]
    exact rl_parse_last_dash _ _ _ _ _ hlast
  · intro s hnstar hstray
    rcases hstray with ⟨c, hc, hbad⟩
    have hne : ¬(s = "") := by
      intro h; subst h; simp at hc
    rw [rl_fromstring, if_neg hne, if_neg hnstar]
    cases hp : rl_parse (s.toList.length + 1) s.toList Token.NUMBER false []
      with
    | none => rfl
    | some r =>
      exact absurd (rl_parse_charset _ _ _ _ _ _ hp c hc) hbad

/-- C8 witness: a trailing dash (`"3-"`) and a stray letter (`"3a"`)
are both rejected. -/
theorem claim8_witness :
    rl_fromstring ("3-") = none ∧ rl_fromstring ("3a") = none :=
  ⟨claim8_fromstring_grammar.2.2.1 ("3-") (by decide),
   claim8_fromstring_grammar.2.2.2 ("3a") (by decide)
     ⟨'a', by decide, by decide⟩⟩

/-- The RangeList built by the `visit_range : '*'` production of
`grammar.y`, which calls `rl_addtofront(0, 0, 65535)`. -/
def visit_range_star : RangeList := rl_addtofront [] 0 65535

/-- C10: the configuration grammar's `visit *` yields the single interval
`[0, 65535]`, so it applies to an audit event iff the event's visit is at
most `65535` (visits are nonnegative: `Visit` is an unsigned type) —
unlike `RangeSet::fromString`, which maps `"*"` to `[0, 2^31 - 1]`, an
interval that does contain e.g. `65536`. -/
theorem claim10_visit_wildcard :
    visit_range_star = [((0 : Int), 65535)] ∧
    (∀ v : Int, 0 ≤ v →
      (rl_contains visit_range_star v = true ↔ v ≤ 65535)) ∧
    rl_fromstring ("*") = some [((0 : Int), 2 ^ 31 - 1)] ∧
    rl_contains [((0 : Int), 2 ^ 31 - 1)] 65536 = true ∧
    rl_contains visit_range_star 65536 = false := by
  refine ⟨by decide, ?_, by decide, by decide, by decide⟩
  intro v hv
  simp [visit_range_star, rl_addtofront, rl_contains]
  omega

/-- C10 witness: at visit 70000 the grammar wildcard does not apply. -/
theorem claim10_witness :
    (0 : Int) ≤ 70000 ∧
    (rl_contains visit_range_star 70000 = true ↔ (70000 : Int) ≤ 65535) :=
  ⟨by decide, claim10_visit_wildcard.2.1 70000 (by decide)⟩

/-! ### Statuses (esig.h) -/

inductive SignatureStatus
  | SIG_NONE
  | SIG_COMPLETE
  | SIG_INVALIDATED
deriving DecidableEq

inductive RecStatus
  | RECORD_NORMAL
  | RECORD_ERROR
  | RECORD_LOST
  | RECORD_DELETED
deriving DecidableEq

inductive ChangeStatus
  | CHANGE_NONE
  | CHANGE_ACCEPTED
  | CHANGE_DECLINED
  | CHANGE_DECLINED_ATFINAL
deriving DecidableEq

open SignatureStatus RecStatus ChangeStatus

structure Status where
  signatureStatus : SignatureStatus
  recStatus : RecStatus
  changeStatus : ChangeStatus
deriving DecidableEq

/-! ### Audit records (stringlist.c, esig.h)

`sl_read` splits one `|`-delimited line into an array of C strings; a
field with no characters stays NULL (here `none`), and `sl_value` maps
out-of-range indices and NULL entries to `""`. -/

abbrev StringList := List (Option String)

def sl_value (sl : StringList) (n : Nat) : String :=
  (sl.getD n none).getD ""

def AUDITREC_RECTYPE : Nat := 0
def AUDITREC_DATE : Nat := 1
def AUDITREC_TIME : Nat := 2
def AUDITREC_USER : Nat := 3
def AUDITREC_PID : Nat := 4
def AUDITREC_VISIT : Nat := 5
def AUDITREC_PLATE : Nat := 6
def AUDITREC_FIELDREF : Nat := 7
def AUDITREC_STATUS : Nat := 9
def AUDITREC_LEVEL : Nat := 10
def AUDITREC_OLDVALUE : Nat := 14
def AUDITREC_NEWVALUE : Nat := 15
def AUDITREC_FIELDPOS : Nat := 16
def AUDITREC_FIELDDESC : Nat := 17
def AUDITREC_OLDDECODE : Nat := 18
def AUDITREC_NEWDECODE : Nat := 19

/-- C `atoi`/`atoll`: skip leading whitespace, read an optional sign and
then the longest digit prefix; no digits means 0.  The `int` / `long
long` width difference is immaterial for the values exercised here, so
one embedding serves both.  (The C code stores some of these into
unsigned typedefs; the claims only involve values where that conversion
is the identity, as noted where it is used.) -/
def atoi (s : String) : Int :=
  match s.toList.dropWhile c_isspace with
  | '-' :: rest => -(evalDigits 0 (rest.takeWhile Char.isDigit))
  | '+' :: rest => evalDigits 0 (rest.takeWhile Char.isDigit)
  | rest => evalDigits 0 (rest.takeWhile Char.isDigit)

/-! ### Exclusion table (exclusions.c) -/

/-- One exclusion row `(plate, field, user, date)` as kept by
`load_exclusions`. -/
structure Exclusion where
  plate : Int
  field : Int
  user : String
  date : String
deriving DecidableEq

/-- `is_excluded`: the exclusion list is a global in the C code; it is an
explicit parameter here.  Membership requires exact equality on plate,
field, user and date, plus an empty `oldValue` on the probing record. -/
def is_excluded (excl : List Exclusion) (sl : StringList) : Bool :=
  let user := sl_value sl AUDITREC_USER
  let date := sl_value sl AUDITREC_DATE
  let orig_value := sl_value sl AUDITREC_OLDVALUE
  let plate := atoi (sl_value sl AUDITREC_PLATE)
  let field := atoi (sl_value sl AUDITREC_FIELDPOS)
  excl.any (fun e =>
    e.plate == plate && e.field == field && e.user == user &&
    e.date == date && orig_value == "")

/-! ### Engine data structures (esig.h, esig.c)

The intrusive red-black trees become keyed lists ordered by their key,
with find / replace-or-insert operations; NULL-able C strings become
`Option String`. -/

structure FieldChange where
  field : Int
  status : Status
  desc : Option String
  old_value : Option String
  new_value : Option String
  who : Option String
  date : Option String
  time : Option String
  comment : Option String
deriving DecidableEq

/-- `fc_alloc`: a fresh FieldChange starts with
`(SIG_NONE, RECORD_NORMAL, CHANGE_ACCEPTED)` and NULL strings. -/
def fc_alloc (field : Int) : FieldChange :=
  { field := field
    status := { signatureStatus := SIG_NONE, recStatus := RECORD_NORMAL,
                changeStatus := CHANGE_ACCEPTED }
    desc := none, old_value := none, new_value := none, who := none
    date := none, time := none, comment := none }

def fct_find (t : List FieldChange) (f : Int) : Option FieldChange :=
  t.find? (fun fc => fc.field == f)

/-- In-order keyed insertion (replaces an entry with the same field). -/
def fct_put : List FieldChange → FieldChange → List FieldChange
  | [], fc => [fc]
  | fc0 :: rest, fc =>
    if fc.field < fc0.field then fc :: fc0 :: rest
    else if fc.field == fc0.field then fc :: rest
    else fc0 :: fct_put rest fc

structure CoveredPlate where
  plate : Int
  status : Status
  is_final : Bool
  field_change_count : Int
  changes : List FieldChange
deriving DecidableEq

/-- `cp_alloc`: fresh plates are `NORMAL`/`NONE`, not final, with no
tracked changes. -/
def cp_alloc (plate : Int) : CoveredPlate :=
  { plate := plate
    status := { signatureStatus := SIG_NONE, recStatus := RECORD_NORMAL,
                changeStatus := CHANGE_NONE }
    is_final := false, field_change_count := 0, changes := [] }

/-- `cp_free_changes`: discard every FieldChange of the plate. -/
def cp_free_changes (cp : CoveredPlate) : CoveredPlate :=
  { cp with changes := [] }

def cpt_find (t : List CoveredPlate) (p : Int) : Option CoveredPlate :=
  t.find? (fun cp => cp.plate == p)

def cpt_put : List CoveredPlate → CoveredPlate → List CoveredPlate
  | [], cp => [cp]
  | cp0 :: rest, cp =>
    if cp.plate < cp0.plate then cp :: cp0 :: rest
    else if cp.plate == cp0.plate then cp :: rest
    else cp0 :: cpt_put rest cp

structure eSigConfig where
  plate : Int
  ignore_fields : RangeList
  visits : RangeList
  sig_plate : Int
  n_sig_fields : Int
  sig_fields : RangeList
  name : String
  serial : Int
deriving DecidableEq

structure eSigField where
  field : Int
  completed : Bool
  desc : Option String
  value : Option String
deriving DecidableEq

def NODE_FLAG_RECSEEN : Nat := 1

structure eSigNode where
  id : Int
  visit : Int
  config : eSigConfig
  status : Status
  signer : Option String
  date : Option String
  time : Option String
  plates : List CoveredPlate
  sig_fields : List eSigField
  flags : Nat
  txn_id : Nat
deriving DecidableEq

/-- `esn_alloc`: fresh node with `(SIG_NONE, RECORD_NORMAL, CHANGE_NONE)`
status, no signer data, no plates, unallocated signature-field slots. -/
def esn_alloc (id visit : Int) (config : eSigConfig) : eSigNode :=
  { id := id, visit := visit, config := config
    status := { signatureStatus := SIG_NONE, recStatus := RECORD_NORMAL,
                changeStatus := CHANGE_NONE }
    signer := none, date := none, time := none
    plates := [], sig_fields := [], flags := 0, txn_id := 0 }

def esn_sig_rec_seen (n : eSigNode) : eSigNode :=
  { n with flags := n.flags ||| NODE_FLAG_RECSEEN }

/-- In-order enumeration of the values of one interval (`for (v = min;
v <= max; v++)`). -/
def enumInterval (mn mx : Int) : List Int :=
  (List.range (mx - mn + 1).toNat).map (fun (i : Nat) => mn + (i : Int))

/-- In-order enumeration of a RangeList, interval by interval (the loop
in `esn_alloc_sigfields`). -/
def rl_enum : RangeList → List Int
  | [] => []
  | e :: rest => enumInterval e.1 e.2 ++ rl_enum rest

/-- `esn_alloc_sigfields`: allocate one cleared `eSigField` slot per
enumerated signature field (the C code sizes the array with
`n_sig_fields`, which the grammar sets to `rl_width(sig_fields)`); a
node whose slots are already allocated is left alone. -/
def esn_alloc_sigfields (n : eSigNode) : eSigNode :=
  if n.sig_fields = [] then
    let slots := (rl_enum n.config.sig_fields).map (fun v =>
      { field := v, completed := false, desc := none, value := none
        : eSigField })
    { n with sig_fields := slots }
  else n

/-- `decode_value`: join a value and its decode label with `=` when a
decode is present. -/
def decode_value (sl : StringList) (valuepos decodepos : Nat) : String :=
  let value := sl_value sl valuepos
  let decode := sl_value sl decodepos
  if decode ≠ "" then value ++ "=" ++ decode else value

/-- `esn_free_signed_values`: when (and only when) the node's recorded
signing transaction matches, every covered plate's FieldChanges are
discarded and its record/change statuses reset. -/
def esn_free_signed_values (n : eSigNode) (txn_id : Nat) : eSigNode :=
  if n.txn_id ≠ txn_id then n
  else
    let plates := n.plates.map (fun cp =>
      let cp := cp_free_changes cp
      let st := { cp.status with recStatus := RECORD_NORMAL, changeStatus := CHANGE_NONE }
      { cp with status := st })
    { n with plates := plates }

/-- The body of the search loop in `esn_sign`: a slot matching the
signed field is marked completed with `desc`/`value` captured from the
audit record; other slots are untouched. -/
def sign_update (sl : StringList) (field : Int) (sf : eSigField) :
    eSigField :=
  if sf.field == field then
    { sf with completed := true
              desc := some (sl_value sl AUDITREC_FIELDDESC)
              value := some (sl_value sl AUDITREC_NEWVALUE) }
  else sf

/-- `esn_sign`: mark the matching slot(s) completed, count completed
slots, and when every slot is completed set `SIG_COMPLETE`, record the
transaction id and capture signer/date/time from the audit record. -/
def esn_sign (n : eSigNode) (sl : StringList) (field : Int)
    (txn_id : Nat) : eSigNode :=
  let sfs := n.sig_fields.map (sign_update sl field)
  let completed := (sfs.filter (fun sf => sf.completed)).length
  let n := { n with sig_fields := sfs }
  if (completed : Int) ≠ n.config.n_sig_fields then n
  else
    { n with
      status := { n.status with signatureStatus := SIG_COMPLETE }
      txn_id := txn_id
      signer := some (sl_value sl AUDITREC_USER)
      date := some (sl_value sl AUDITREC_DATE)
      time := some (sl_value sl AUDITREC_TIME) }

/-- The body of the search loop in `esn_unsign`: a slot matching the
cleared field loses `completed` and its `value` becomes the empty string
(`update_string` with `""`). -/
def unsign_update (field : Int) (sf : eSigField) : eSigField :=
  if sf.field == field then { sf with completed := false, value := some "" }
  else sf

/-- `esn_unsign`: clear the matching slot(s) (`value` becomes the empty
string via `update_string`), demote `COMPLETE` to `INVALIDATED`, zero the
transaction id; signer/date/time are retained. -/
def esn_unsign (n : eSigNode) (field : Int) : eSigNode :=
  let sfs := n.sig_fields.map (unsign_update field)
  let st := if n.status.signatureStatus = SIG_COMPLETE then SIG_INVALIDATED
            else n.status.signatureStatus
  { n with sig_fields := sfs
           status := { n.status with signatureStatus := st }
           txn_id := 0 }

/-- The covered-plate part of `esn_datachange`: find or insert the
plate, reset its record status, derive `is_final` and the
error/deleted/lost record states (discarding the plate's changes for
deleted/lost) from the audit record's status and level. -/
def datachange_plate (n : eSigNode) (sl : StringList) (plate : Int) :
    CoveredPlate :=
  let cp := match cpt_find n.plates plate with
    | some cp0 => cp0
    | none => cp_alloc plate
  let rec_status := atoi (sl_value sl AUDITREC_STATUS)
  let rec_level := atoi (sl_value sl AUDITREC_LEVEL)
  let cp := { cp with status := { cp.status with recStatus := RECORD_NORMAL } }
  let cp := { cp with is_final := rec_status == 0 || rec_status == 1 }
  let cp :=
    if rec_status == 3 && rec_level == 7 then
      let cp := if n.status.signatureStatus ≠ SIG_NONE then
          { cp with status := { cp.status with changeStatus := CHANGE_DECLINED } }
        else cp
      { cp with status := { cp.status with recStatus := RECORD_ERROR } }
    else cp
  let cp :=
    if rec_status == 7 then
      let cp := if n.status.signatureStatus ≠ SIG_NONE then
          { cp with status := { cp.status with changeStatus := CHANGE_DECLINED } }
        else cp
      cp_free_changes
        { cp with status := { cp.status with recStatus := RECORD_DELETED } }
    else cp
  let cp :=
    if rec_status == 0 then
      let cp := if n.status.signatureStatus ≠ SIG_NONE then
          { cp with status := { cp.status with changeStatus := CHANGE_DECLINED } }
        else cp
      cp_free_changes
        { cp with status := { cp.status with recStatus := RECORD_LOST } }
    else cp
  cp

/-- The FieldChange upsert of `esn_datachange`: reuse the existing entry
(or allocate one capturing `oldValue` on first insert), overwrite
`who/date/time/desc/newValue`, and set the change status — `ACCEPTED`
with the exemption comment for a brand-new excluded change, otherwise
`DECLINED` with no comment. -/
def datachange_newchange (excl : List Exclusion) (sl : StringList)
    (field : Int) (cp : CoveredPlate) : FieldChange :=
  let found := fct_find cp.changes field
  let fc := match found with
    | some fc0 => fc0
    | none =>
      { fc_alloc field with
          old_value := some (decode_value sl AUDITREC_OLDVALUE
            AUDITREC_OLDDECODE) }
  let fc := { fc with
    who := some (sl_value sl AUDITREC_USER)
    date := some (sl_value sl AUDITREC_DATE)
    time := some (sl_value sl AUDITREC_TIME)
    desc := some (sl_value sl AUDITREC_FIELDDESC)
    new_value := some (decode_value sl AUDITREC_NEWVALUE
      AUDITREC_NEWDECODE) }
  if found.isNone && is_excluded excl sl then
    { fc with comment := some "Administratively exempted"
              status := { fc.status with changeStatus := CHANGE_ACCEPTED } }
  else
    { fc with comment := none
              status := { fc.status with changeStatus := CHANGE_DECLINED } }

def esn_datachange (excl : List Exclusion) (n : eSigNode) (sl : StringList)
    (plate : Int) (field : Int) (txn_id : Nat) : eSigNode :=
  let cp := datachange_plate n sl plate
  if txn_id == n.txn_id then { n with plates := cpt_put n.plates cp }
  else if field < 7 then { n with plates := cpt_put n.plates cp }
  else
    let fc := datachange_newchange excl sl field cp
    { n with plates :=
        cpt_put n.plates { cp with changes := fct_put cp.changes fc } }

/-- `write_drf` emits `patient|visit|sigPlate` lines; the output file is
modelled as the list of `(patient, visit, sig_plate)` triples in tree
order. -/
def write_drf : List eSigNode → List (Int × Int × Int)
  | [] => []
  | esn :: rest =>
    if (esn.status.signatureStatus == SIG_INVALIDATED)
        || ((esn.status.signatureStatus == SIG_COMPLETE)
            && (esn.status.recStatus == RECORD_NORMAL)
            && (esn.status.changeStatus == CHANGE_DECLINED)) then
      (esn.id, esn.visit, esn.config.sig_plate) :: write_drf rest
    else write_drf rest

/-- C1: the DRF contains the line `patient|visit|sigPlate` for a node
exactly when `signatureStatus == INVALIDATED`, or `signatureStatus ==
COMPLETE` and `recStatus == NORMAL` and `changeStatus == DECLINED`. -/
theorem claim1_drf_emission (tree : List eSigNode) (ln : Int × Int × Int) :
    ln ∈ write_drf tree ↔
      ∃ esn ∈ tree,
        (esn.status.signatureStatus = SIG_INVALIDATED ∨
          (esn.status.signatureStatus = SIG_COMPLETE ∧
           esn.status.recStatus = RECORD_NORMAL ∧
           esn.status.changeStatus = CHANGE_DECLINED)) ∧
        ln = (esn.id, esn.visit, esn.config.sig_plate) := by
  induction tree with
  | nil => simp [write_drf]
  | cons esn rest ih =>
    have hb : (((esn.status.signatureStatus == SIG_INVALIDATED)
        || ((esn.status.signatureStatus == SIG_COMPLETE)
            && (esn.status.recStatus == RECORD_NORMAL)
            && (esn.status.changeStatus == CHANGE_DECLINED))) = true) ↔
        (esn.status.signatureStatus = SIG_INVALIDATED ∨
          (esn.status.signatureStatus = SIG_COMPLETE ∧
           esn.status.recStatus = RECORD_NORMAL ∧
           esn.status.changeStatus = CHANGE_DECLINED)) := by
      simp [Bool.or_eq_true, Bool.and_eq_true, and_assoc]
    simp only [write_drf]
    by_cases h : esn.status.signatureStatus = SIG_INVALIDATED ∨
        (esn.status.signatureStatus = SIG_COMPLETE ∧
         esn.status.recStatus = RECORD_NORMAL ∧
         esn.status.changeStatus = CHANGE_DECLINED)
    · rw [if_pos (hb.mpr h)]
      simp only [List.mem_cons, ih]
      constructor
      · rintro (rfl | ⟨e, he, hp, rfl⟩)
        · exact ⟨esn, Or.inl rfl, h, rfl⟩
        · exact ⟨e, Or.inr he, hp, rfl⟩
      · rintro ⟨e, he, hp, rfl⟩
        rcases he with rfl | he'
        · exact Or.inl rfl
        · exact Or.inr ⟨e, he', hp, rfl⟩
    · rw [if_neg (fun hc => h (hb.mp hc))]
      rw [ih]
      constructor
      · rintro ⟨e, he, hp, rfl⟩
        exact ⟨e, List.mem_cons_of_mem _ he, hp, rfl⟩
      · rintro ⟨e, he, hp, rfl⟩
        rcases List.mem_cons.mp he with rfl | he'
        · exact absurd hp h
        · exact ⟨e, he', hp, rfl⟩

/-- A small configuration used by concrete counterexamples and
witnesses: signature plate 10, one signature field 8, covering plate 11,
all visits up to 65535 in scope. -/
def demo_config : eSigConfig :=
  { plate := 11, ignore_fields := [], visits := [(0, 65535)]
    sig_plate := 10, n_sig_fields := 1, sig_fields := [(8, 8)]
    name := "A", serial := 1 }

/-- A node holding one covered plate (11) with one tracked FieldChange
(field 12) and no recorded signing transaction (`txn_id = 0`). -/
def claim3_node : eSigNode :=
  { esn_alloc 1 1 demo_config with
      plates := [{ cp_alloc 11 with changes := [fc_alloc 12] }] }

/-- C3 counterexample: calling `freeSignedValues(node, 1)` on a node
whose `txnId` is 0 returns early, so the covered plate keeps its
FieldChange — "after any call" does not hold; the effect is guarded by
`node.txnId == txnId`. -/
theorem claim3_counterexample :
    ¬ (∀ cp ∈ (esn_free_signed_values claim3_node 1).plates,
        cp.changes = [] ∧ cp.status.recStatus = RECORD_NORMAL ∧
        cp.status.changeStatus = CHANGE_NONE) := by
  decide

/-- C3 (amended): after a call to `freeSignedValues(node, txnId)` **with
`node.txnId == txnId`** (which is how the host calls it after a
completing sign), every covered plate of the node has an empty change
map, `recStatus == NORMAL` and `changeStatus == NONE`. -/
theorem claim3_free_signed_values_amended (n : eSigNode) (txn_id : Nat)
    (h : n.txn_id = txn_id) :
    ∀ cp ∈ (esn_free_signed_values n txn_id).plates,
      cp.changes = [] ∧ cp.status.recStatus = RECORD_NORMAL ∧
      cp.status.changeStatus = CHANGE_NONE := by
  intro cp hcp
  rw [esn_free_signed_values, if_neg (by simp [h])] at hcp
  simp only [List.mem_map] at hcp
  rcases hcp with ⟨cp0, _, rfl⟩
  simp [cp_free_changes]

/-- C3 witness: on the same node with `txnId = 1`, the call clears the
plate. -/
theorem claim3_witness :
    ({ claim3_node with txn_id := 1 } : eSigNode).txn_id = 1 ∧
    (∀ cp ∈ (esn_free_signed_values
        { claim3_node with txn_id := 1 } 1).plates,
      cp.changes = [] ∧ cp.status.recStatus = RECORD_NORMAL ∧
      cp.status.changeStatus = CHANGE_NONE) :=
  ⟨rfl, claim3_free_signed_values_amended { claim3_node with txn_id := 1 } 1 rfl⟩

/-- C9: `unsign(field)` clears `completed` and `value` of the matching
signature field slot(s), transitions `signatureStatus` to `INVALIDATED`
exactly when it was `COMPLETE`, zeroes `txnId`, and leaves signer, date,
time, the covered plates (with all their FieldChanges) and the other
status components unchanged. -/
theorem claim9_unsign_frame (n : eSigNode) (field : Int) :
    (esn_unsign n field).sig_fields
        = n.sig_fields.map (fun sf =>
            if sf.field == field then
              { sf with completed := false, value := some "" }
            else sf) ∧
    (esn_unsign n field).status.signatureStatus
        = (if n.status.signatureStatus = SIG_COMPLETE then SIG_INVALIDATED
           else n.status.signatureStatus) ∧
    (esn_unsign n field).txn_id = 0 ∧
    (esn_unsign n field).signer = n.signer ∧
    (esn_unsign n field).date = n.date ∧
    (esn_unsign n field).time = n.time ∧
    (esn_unsign n field).plates = n.plates ∧
    (esn_unsign n field).status.recStatus = n.status.recStatus ∧
    (esn_unsign n field).status.changeStatus = n.status.changeStatus :=
  ⟨rfl, rfl, rfl, rfl, rfl, rfl, rfl, rfl, rfl⟩

/-! ### The COMPLETE-iff-all-fields invariant (C2) -/

theorem enumInterval_length (mn mx : Int) :
    (enumInterval mn mx).length = (mx - mn + 1).toNat := by
  unfold enumInterval
  rw [List.length_map, List.length_range]

theorem rl_enum_length (rl : RangeList) (hwf : ∀ e ∈ rl, e.1 ≤ e.2) :
    ((rl_enum rl).length : Int) = rl_width rl := by
  induction rl with
  | nil => simp [rl_enum, rl_width]
  | cons e rest ih =>
    have he := hwf e (List.mem_cons_self e rest)
    have hrest := ih (fun e' he' => hwf e' (List.mem_cons_of_mem e he'))
    simp only [rl_enum, rl_width, List.length_append, enumInterval_length]
    push_cast
    omega

theorem rl_enum_ne_nil (rl : RangeList) (hne : rl ≠ [])
    (hwf : ∀ e ∈ rl, e.1 ≤ e.2) : rl_enum rl ≠ [] := by
  cases rl with
  | nil => exact absurd rfl hne
  | cons e rest =>
    intro hc
    have he := hwf e (List.mem_cons_self e rest)
    have hlen := congrArg List.length hc
    simp only [rl_enum, List.length_append, enumInterval_length,
      List.length_nil] at hlen
    omega

theorem mem_enumInterval_of (mn mx v : Int) (h1 : mn ≤ v) (h2 : v ≤ mx) :
    v ∈ enumInterval mn mx := by
  unfold enumInterval
  rw [List.mem_map]
  refine ⟨(v - mn).toNat, ?_, ?_⟩
  · rw [List.mem_range]
    omega
  · omega

theorem mem_rl_enum_of :
    ∀ (rl : RangeList) (e : Int × Int), e ∈ rl →
      ∀ v : Int, e.1 ≤ v → v ≤ e.2 → v ∈ rl_enum rl := by
  intro rl
  induction rl with
  | nil => intro e he; simp at he
  | cons e0 rest ih =>
    intro e he v h1 h2
    simp only [rl_enum, List.mem_append]
    rcases List.mem_cons.mp he with rfl | he'
    · exact Or.inl (mem_enumInterval_of _ _ _ h1 h2)
    · exact Or.inr (ih e he' v h1 h2)

/-- Well-formedness the configuration grammar guarantees for every
record: `fields range` supplies at least one element, `rl_addtofront`
swaps inverted bounds (so every interval is canonical), and the grammar
sets `n_sig_fields = rl_width(sig_fields)`. -/
def esc_wf (cfg : eSigConfig) : Prop :=
  cfg.sig_fields ≠ [] ∧ (∀ e ∈ cfg.sig_fields, e.1 ≤ e.2) ∧
  cfg.n_sig_fields = rl_width cfg.sig_fields

/-- Every node state the engine can produce for a node created from one
configuration record: a freshly inserted node (`esn_alloc` followed by
`esn_alloc_sigfields`, as in `process_input`) and any sequence of the
three dispatches, with sign/unsign carrying an *arbitrary* field.  This
overapproximates `process_input`: its `rl_contains(esc->sig_fields,
field)` guard uses whichever configuration record is currently applying,
and after key collapse (`esn_compare` keys nodes only by id, visit,
signature plate and minimum signature field) that record's field set may
differ from the field set of the configuration the node was created
with, so the node can receive sign/unsign dispatches for fields outside
its own slot array. -/
inductive ReachableDispatch (excl : List Exclusion) (cfg : eSigConfig) :
    eSigNode → Prop
  | init (id visit : Int) :
      ReachableDispatch excl cfg
        (esn_alloc_sigfields (esn_alloc id visit cfg))
  | sign (n : eSigNode) (sl : StringList) (field : Int) (txn_id : Nat)
      (h : ReachableDispatch excl cfg n) :
      ReachableDispatch excl cfg (esn_sign n sl field txn_id)
  | unsign (n : eSigNode) (field : Int)
      (h : ReachableDispatch excl cfg n) :
      ReachableDispatch excl cfg (esn_unsign n field)
  | datachange (n : eSigNode) (sl : StringList) (plate field : Int)
      (txn_id : Nat) (h : ReachableDispatch excl cfg n) :
      ReachableDispatch excl cfg (esn_datachange excl n sl plate field txn_id)

/-- The restriction of `ReachableDispatch` in which every sign/unsign
dispatch carries a field of the node's *own* configuration's
`sig_fields` — the proviso of the amended C2 claim.  This is what
`process_input` delivers whenever all configuration records that collapse
onto one node key agree on their signature-field set (in particular,
whenever signature-plate/minimum-field pairs are not shared between
blocks with different field sets). -/
inductive ReachableOwnFields (excl : List Exclusion) (cfg : eSigConfig) :
    eSigNode → Prop
  | init (id visit : Int) :
      ReachableOwnFields excl cfg
        (esn_alloc_sigfields (esn_alloc id visit cfg))
  | sign (n : eSigNode) (sl : StringList) (field : Int) (txn_id : Nat)
      (h : ReachableOwnFields excl cfg n)
      (hf : rl_contains cfg.sig_fields field = true) :
      ReachableOwnFields excl cfg (esn_sign n sl field txn_id)
  | unsign (n : eSigNode) (field : Int)
      (h : ReachableOwnFields excl cfg n)
      (hf : rl_contains cfg.sig_fields field = true) :
      ReachableOwnFields excl cfg (esn_unsign n field)
  | datachange (n : eSigNode) (sl : StringList) (plate field : Int)
      (txn_id : Nat) (h : ReachableOwnFields excl cfg n) :
      ReachableOwnFields excl cfg (esn_datachange excl n sl plate field txn_id)

theorem sign_update_field (sl : StringList) (field : Int)
    (sf : eSigField) : (sign_update sl field sf).field = sf.field := by
  unfold sign_update
  split <;> rfl

theorem unsign_update_field (field : Int) (sf : eSigField) :
    (unsign_update field sf).field = sf.field := by
  unfold unsign_update
  split <;> rfl

theorem esn_datachange_frame (excl : List Exclusion) (n : eSigNode)
    (sl : StringList) (plate field : Int) (txn_id : Nat) :
    (esn_datachange excl n sl plate field txn_id).config = n.config ∧
    (esn_datachange excl n sl plate field txn_id).sig_fields
      = n.sig_fields ∧
    (esn_datachange excl n sl plate field txn_id).status = n.status := by
  simp only [esn_datachange]
  split
  · exact ⟨rfl, rfl, rfl⟩
  · split
    · exact ⟨rfl, rfl, rfl⟩
    · exact ⟨rfl, rfl, rfl⟩

theorem esn_sign_proj (n : eSigNode) (sl : StringList) (field : Int)
    (txn_id : Nat) :
    (esn_sign n sl field txn_id).config = n.config ∧
    (esn_sign n sl field txn_id).sig_fields
      = n.sig_fields.map (sign_update sl field) ∧
    (esn_sign n sl field txn_id).status.signatureStatus
      = (if (((n.sig_fields.map (sign_update sl field)).filter
              (fun sf => sf.completed)).length : Int)
            = n.config.n_sig_fields
         then SIG_COMPLETE else n.status.signatureStatus) := by
  simp only [esn_sign]
  split
  next hc =>
    exact ⟨rfl, rfl, rfl⟩
  next hc =>
    refine ⟨rfl, rfl, ?_⟩
    rw [if_pos (not_not.mp hc)]

/-- Invariant under own-field dispatches: the node keeps its
configuration, its slot array stays the in-order enumeration of the
configuration's signature fields, and `SIG_COMPLETE` holds exactly when
every slot is completed. -/
theorem reachable_inv (excl : List Exclusion) (cfg : eSigConfig)
    (hwf : esc_wf cfg) :
    ∀ n, ReachableOwnFields excl cfg n →
      n.config = cfg ∧
      n.sig_fields.map (fun sf => sf.field) = rl_enum cfg.sig_fields ∧
      (n.status.signatureStatus = SIG_COMPLETE ↔
        ∀ sf ∈ n.sig_fields, sf.completed = true) := by
  intro n h
  induction h with
  | init id visit =>
    have hsf : (esn_alloc_sigfields (esn_alloc id visit cfg)).sig_fields
        = (rl_enum cfg.sig_fields).map (fun v =>
            ({ field := v, completed := false, desc := none, value := none }
              : eSigField)) := rfl
    refine ⟨rfl, ?_, ?_⟩
    · rw [hsf, List.map_map]
      exact (List.map_congr_left (fun v _ => rfl)).trans (List.map_id _)
    · constructor
      · intro habs
        exact SignatureStatus.noConfusion habs
      · intro hall
        exfalso
        have hne := rl_enum_ne_nil cfg.sig_fields hwf.1 hwf.2.1
        obtain ⟨v, hv⟩ : ∃ v, v ∈ rl_enum cfg.sig_fields := by
          cases hh : rl_enum cfg.sig_fields with
          | nil => exact absurd hh hne
          | cons v vs => exact ⟨v, List.mem_cons_self v vs⟩
        have hmem : ({ field := v, completed := false, desc := none, value := none } : eSigField)
            ∈ (esn_alloc_sigfields (esn_alloc id visit cfg)).sig_fields := by
          rw [hsf]
          exact List.mem_map_of_mem _ hv
        have := hall _ hmem
        simp at this
  | sign n0 sl field txn_id h hf ih =>
    obtain ⟨hcfg, hfields, hiff⟩ := ih
    obtain ⟨hconfig_pres, hsf_pres, hstatus⟩ := esn_sign_proj n0 sl field txn_id
    have hfield_pres : (n0.sig_fields.map (sign_update sl field)).map
        (fun sf => sf.field) = rl_enum cfg.sig_fields := by
      rw [List.map_map]
      have hcomp : ((fun sf => sf.field) ∘ sign_update sl field)
          = fun sf => (sign_update sl field sf).field := rfl
      rw [hcomp, List.map_congr_left
        (fun sf _ => sign_update_field sl field sf), hfields]
    have hnsf : n0.config.n_sig_fields
        = ((n0.sig_fields.map (sign_update sl field)).length : Int) := by
      rw [hcfg, hwf.2.2, ← rl_enum_length _ hwf.2.1, ← hfields]
      simp
    have hmono : (∀ sf ∈ n0.sig_fields, sf.completed = true) →
        ∀ sf ∈ n0.sig_fields.map (sign_update sl field),
          sf.completed = true := by
      intro hall sf hsf
      rcases List.mem_map.mp hsf with ⟨sf0, hsf0, rfl⟩
      unfold sign_update
      split
      · rfl
      · exact hall sf0 hsf0
    refine ⟨by rw [hconfig_pres]; exact hcfg,
      by rw [hsf_pres]; exact hfield_pres, ?_⟩
    rw [hstatus, hsf_pres]
    by_cases hc : (((n0.sig_fields.map (sign_update sl field)).filter
        (fun sf => sf.completed)).length : Int) = n0.config.n_sig_fields
    · rw [if_pos hc]
      constructor
      · intro _
        apply List.filter_length_eq_length.mp
        have : (((n0.sig_fields.map (sign_update sl field)).filter
            (fun sf => sf.completed)).length : Int)
            = ((n0.sig_fields.map (sign_update sl field)).length : Int) :=
          hc.trans hnsf
        exact_mod_cast this
      · intro _
        rfl
    · rw [if_neg hc]
      have hnotall : ¬ ∀ sf ∈ n0.sig_fields.map (sign_update sl field),
          sf.completed = true := by
        intro hall
        exact hc (by rw [List.filter_length_eq_length.mpr hall]
                     exact hnsf.symm)
      constructor
      · intro hcomp
        exact absurd (hmono (hiff.mp hcomp)) hnotall
      · intro hall
        exact absurd hall hnotall
  | unsign n0 field h hf ih =>
    obtain ⟨hcfg, hfields, hiff⟩ := ih
    have hfmem : field ∈ rl_enum cfg.sig_fields := by
      rcases (rl_contains_iff cfg.sig_fields field).mp hf with ⟨e, he, h1, h2⟩
      exact mem_rl_enum_of cfg.sig_fields e he field h1 h2
    obtain ⟨sfw, hsfw, hsfw_field⟩ :
        ∃ sf ∈ n0.sig_fields, sf.field = field := by
      rw [← hfields] at hfmem
      rcases List.mem_map.mp hfmem with ⟨sf, hsf, heq⟩
      exact ⟨sf, hsf, heq⟩
    refine ⟨hcfg, ?_, ?_⟩
    · show (n0.sig_fields.map (unsign_update field)).map (fun sf => sf.field)
        = rl_enum cfg.sig_fields
      rw [List.map_map]
      have hcomp : ((fun sf => sf.field) ∘ unsign_update field)
          = fun sf => (unsign_update field sf).field := rfl
      rw [hcomp, List.map_congr_left
        (fun sf _ => unsign_update_field field sf), hfields]
    · constructor
      · intro habs
        exfalso
        by_cases hC : n0.status.signatureStatus = SIG_COMPLETE
        · have : (esn_unsign n0 field).status.signatureStatus
              = SIG_INVALIDATED := by
            show (if n0.status.signatureStatus = SIG_COMPLETE
                then SIG_INVALIDATED else n0.status.signatureStatus)
              = SIG_INVALIDATED
            rw [if_pos hC]
          rw [this] at habs
          exact absurd habs (by decide)
        · have : (esn_unsign n0 field).status.signatureStatus
              = n0.status.signatureStatus := by
            show (if n0.status.signatureStatus = SIG_COMPLETE
                then SIG_INVALIDATED else n0.status.signatureStatus)
              = n0.status.signatureStatus
            rw [if_neg hC]
          rw [this] at habs
          exact hC habs
      · intro hall
        exfalso
        have hmem : unsign_update field sfw
            ∈ (esn_unsign n0 field).sig_fields :=
          List.mem_map_of_mem _ hsfw
        have := hall _ hmem
        unfold unsign_update at this
        rw [if_pos (by simp [hsfw_field])] at this
        simp at this
  | datachange n0 sl plate field txn_id h ih =>
    obtain ⟨hcfg, hfields, hiff⟩ := ih
    obtain ⟨h1, h2, h3⟩ := esn_datachange_frame excl n0 sl plate field txn_id
    refine ⟨by rw [h1]; exact hcfg, by rw [h2]; exact hfields, ?_⟩
    rw [h3, h2]
    exact hiff

/-- Invariant under arbitrary-field dispatches (everything
`process_input` can deliver, including cross-configuration dispatches
after key collapse): the configuration and slot enumeration are
preserved, and `SIG_COMPLETE` still implies every slot is completed —
only this direction survives, because an unsign for a slotless field
demotes `COMPLETE` without clearing any slot. -/
theorem reachable_dispatch_complete (excl : List Exclusion)
    (cfg : eSigConfig) (hwf : esc_wf cfg) :
    ∀ n, ReachableDispatch excl cfg n →
      n.config = cfg ∧
      n.sig_fields.map (fun sf => sf.field) = rl_enum cfg.sig_fields ∧
      (n.status.signatureStatus = SIG_COMPLETE →
        ∀ sf ∈ n.sig_fields, sf.completed = true) := by
  intro n h
  induction h with
  | init id visit =>
    have hsf : (esn_alloc_sigfields (esn_alloc id visit cfg)).sig_fields
        = (rl_enum cfg.sig_fields).map (fun v =>
            ({ field := v, completed := false, desc := none, value := none }
              : eSigField)) := rfl
    refine ⟨rfl, ?_, ?_⟩
    · rw [hsf, List.map_map]
      exact (List.map_congr_left (fun v _ => rfl)).trans (List.map_id _)
    · intro habs
      exact SignatureStatus.noConfusion habs
  | sign n0 sl field txn_id h ih =>
    obtain ⟨hcfg, hfields, himp⟩ := ih
    obtain ⟨hconfig_pres, hsf_pres, hstatus⟩ := esn_sign_proj n0 sl field txn_id
    have hfield_pres : (n0.sig_fields.map (sign_update sl field)).map
        (fun sf => sf.field) = rl_enum cfg.sig_fields := by
      rw [List.map_map]
      have hcomp : ((fun sf => sf.field) ∘ sign_update sl field)
          = fun sf => (sign_update sl field sf).field := rfl
      rw [hcomp, List.map_congr_left
        (fun sf _ => sign_update_field sl field sf), hfields]
    have hnsf : n0.config.n_sig_fields
        = ((n0.sig_fields.map (sign_update sl field)).length : Int) := by
      rw [hcfg, hwf.2.2, ← rl_enum_length _ hwf.2.1, ← hfields]
      simp
    have hmono : (∀ sf ∈ n0.sig_fields, sf.completed = true) →
        ∀ sf ∈ n0.sig_fields.map (sign_update sl field),
          sf.completed = true := by
      intro hall sf hsf
      rcases List.mem_map.mp hsf with ⟨sf0, hsf0, rfl⟩
      unfold sign_update
      split
      · rfl
      · exact hall sf0 hsf0
    refine ⟨by rw [hconfig_pres]; exact hcfg,
      by rw [hsf_pres]; exact hfield_pres, ?_⟩
    rw [hstatus, hsf_pres]
    by_cases hc : (((n0.sig_fields.map (sign_update sl field)).filter
        (fun sf => sf.completed)).length : Int) = n0.config.n_sig_fields
    · rw [if_pos hc]
      intro _
      apply List.filter_length_eq_length.mp
      have : (((n0.sig_fields.map (sign_update sl field)).filter
          (fun sf => sf.completed)).length : Int)
          = ((n0.sig_fields.map (sign_update sl field)).length : Int) :=
        hc.trans hnsf
      exact_mod_cast this
    · rw [if_neg hc]
      intro hcomp
      exact hmono (himp hcomp)
  | unsign n0 field h ih =>
    obtain ⟨hcfg, hfields, himp⟩ := ih
    refine ⟨hcfg, ?_, ?_⟩
    · show (n0.sig_fields.map (unsign_update field)).map (fun sf => sf.field)
        = rl_enum cfg.sig_fields
      rw [List.map_map]
      have hcomp : ((fun sf => sf.field) ∘ unsign_update field)
          = fun sf => (unsign_update field sf).field := rfl
      rw [hcomp, List.map_congr_left
        (fun sf _ => unsign_update_field field sf), hfields]
    · intro habs
      exfalso
      by_cases hC : n0.status.signatureStatus = SIG_COMPLETE
      · have : (esn_unsign n0 field).status.signatureStatus
            = SIG_INVALIDATED := by
          show (if n0.status.signatureStatus = SIG_COMPLETE
              then SIG_INVALIDATED else n0.status.signatureStatus)
            = SIG_INVALIDATED
          rw [if_pos hC]
        rw [this] at habs
        exact absurd habs (by decide)
      · have : (esn_unsign n0 field).status.signatureStatus
            = n0.status.signatureStatus := by
          show (if n0.status.signatureStatus = SIG_COMPLETE
              then SIG_INVALIDATED else n0.status.signatureStatus)
            = n0.status.signatureStatus
          rw [if_neg hC]
        rw [this] at habs
        exact hC habs
  | datachange n0 sl plate field txn_id h ih =>
    obtain ⟨hcfg, hfields, himp⟩ := ih
    obtain ⟨h1, h2, h3⟩ := esn_datachange_frame excl n0 sl plate field txn_id
    refine ⟨by rw [h1]; exact hcfg, by rw [h2]; exact hfields, ?_⟩
    rw [h3, h2]
    exact himp

/-- C2 (amended): for every reachable SigNode,
`signatureStatus == COMPLETE` *implies* that every element of the
node's `sigFields` array has `completed == true`; the full equivalence
holds provided every sign/unsign dispatch carries a field of the node's
own configuration's `sigFields` — which `process_input` guarantees
whenever configuration records that collapse onto one node key (same
patient, visit, signature plate and minimum signature field) agree on
their signature-field sets. -/
theorem claim2_complete_iff_amended :
    (∀ (excl : List Exclusion) (cfg : eSigConfig), esc_wf cfg →
      ∀ n, ReachableDispatch excl cfg n →
        n.status.signatureStatus = SIG_COMPLETE →
        ∀ sf ∈ n.sig_fields, sf.completed = true) ∧
    (∀ (excl : List Exclusion) (cfg : eSigConfig), esc_wf cfg →
      ∀ n, ReachableOwnFields excl cfg n →
        (n.status.signatureStatus = SIG_COMPLETE ↔
          ∀ sf ∈ n.sig_fields, sf.completed = true)) :=
  ⟨fun excl cfg hwf n h => (reachable_dispatch_complete excl cfg hwf n h).2.2,
   fun excl cfg hwf n h => (reachable_inv excl cfg hwf n h).2.2⟩

/-- C2 witness: both parts at freshly created nodes of the demo
configuration. -/
theorem claim2_witness :
    esc_wf demo_config ∧
    ((esn_alloc_sigfields (esn_alloc 1 1 demo_config)).status.signatureStatus
        = SIG_COMPLETE →
      ∀ sf ∈ (esn_alloc_sigfields (esn_alloc 1 1 demo_config)).sig_fields,
        sf.completed = true) ∧
    ((esn_alloc_sigfields (esn_alloc 2 1 demo_config)).status.signatureStatus
        = SIG_COMPLETE ↔
      ∀ sf ∈ (esn_alloc_sigfields (esn_alloc 2 1 demo_config)).sig_fields,
        sf.completed = true) :=
  ⟨⟨by decide, by decide, by decide⟩,
   claim2_complete_iff_amended.1 [] demo_config
     ⟨by decide, by decide, by decide⟩ _ (ReachableDispatch.init 1 1),
   claim2_complete_iff_amended.2 [] demo_config
     ⟨by decide, by decide, by decide⟩ _ (ReachableOwnFields.init 2 1)⟩

/-! ### Transaction grouping and the dispatch loop (main.c, process_input)

The SQLite writes (`db_write_signature`, `db_update_signature_value`)
are external sinks and do not affect engine state, so they are omitted;
everything else in the loop body is modelled. -/

/-- `%lld`/`%d` decimal rendering of a parsed numeric key field. -/
def intToString (v : Int) : String := String.mk (intDecChars v)

/-- The transaction key `date|time|user|patient|visit|plate` composed by
`process_input` with `snprintf` — the id, visit and plate components are
re-printed from their parsed numeric values. -/
def audit_txn_key (sl : StringList) (id visit plate : Int) : String :=
  sl_value sl AUDITREC_DATE ++ "|" ++ sl_value sl AUDITREC_TIME ++ "|"
    ++ sl_value sl AUDITREC_USER ++ "|" ++ intToString id ++ "|"
    ++ intToString visit ++ "|" ++ intToString plate

structure AuditState where
  txn_id : Nat
  last_txn : String
  tree : List eSigNode
deriving DecidableEq

/-- `process_input` starts with `txn_id = 0`, an empty `last_txn` and an
empty node tree. -/
def init_audit_state : AuditState :=
  { txn_id := 0, last_txn := "", tree := [] }

/-- The `eSigNodeTree` key from `esn_compare`: patient id, visit,
signature plate, then the lowest signature field (`rl_min`). -/
def esn_key (n : eSigNode) : Int × Int × Int × Int :=
  (n.id, n.visit, n.config.sig_plate, rl_min n.config.sig_fields)

def est_find (t : List eSigNode) (k : Int × Int × Int × Int) :
    Option eSigNode :=
  t.find? (fun n => esn_key n == k)

/-- `RB_INSERT` semantics on the node tree: replace the node with the
same key, or add the new node (the red-black tree's in-order position
does not matter to any claim, so new nodes are appended). -/
def est_put : List eSigNode → eSigNode → List eSigNode
  | [], n => [n]
  | n0 :: rest, n =>
    if esn_key n0 == esn_key n then n :: rest
    else n0 :: est_put rest n

/-- The configuration loop of `process_input` for one audit record: each
applying record finds or creates the node, tracks RECSEEN, and
dispatches either a signature-field write (sign with a non-empty new
value, unsign otherwise) or a data change.  Returns the updated tree and
the transaction id accompanying each dispatch, in configuration order. -/
def processConfigs (excl : List Exclusion) (sl : StringList)
    (id visit plate field rec_status : Int) (txn_id : Nat) :
    List eSigConfig → List eSigNode → List eSigNode × List Nat
  | [], tree => (tree, [])
  | esc :: rest, tree =>
    if esc.plate == plate && rl_contains esc.visits visit
        && !rl_contains esc.ignore_fields field then
      let esn := match est_find tree
          (id, visit, esc.sig_plate, rl_min esc.sig_fields) with
        | some e => e
        | none => esn_alloc_sigfields (esn_alloc id visit esc)
      let esn := if plate == esc.sig_plate && rec_status != 0 then
          esn_sig_rec_seen esn
        else esn
      let esn :=
        if plate == esc.sig_plate && rl_contains esc.sig_fields field then
          if sl_value sl AUDITREC_NEWVALUE ≠ "" then
            esn_free_signed_values (esn_sign esn sl field txn_id) txn_id
          else esn_unsign esn field
        else esn_datachange excl esn sl plate field txn_id
      let r := processConfigs excl sl id visit plate field rec_status txn_id
        rest (est_put tree esn)
      (r.1, txn_id :: r.2)
    else
      processConfigs excl sl id visit plate field rec_status txn_id rest tree

/-- One iteration of the `sl_read` loop of `process_input`: skip QCs and
reasons (`fieldref ≠ 0`), skip raster/study/key fields
(`2 < fieldPos ≤ 7`), otherwise parse the numeric key fields, advance the
transaction id when the composed key differs from the previous one, and
run the configuration loop. -/
def processLine (excl : List Exclusion) (cfgs : List eSigConfig)
    (st : AuditState) (sl : StringList) : AuditState × List Nat :=
  if atoi (sl_value sl AUDITREC_FIELDREF) ≠ 0 then (st, [])
  else
    let field := atoi (sl_value sl AUDITREC_FIELDPOS)
    if field > 2 ∧ field ≤ 7 then (st, [])
    else
      let rec_status := atoi (sl_value sl AUDITREC_STATUS)
      let id := atoi (sl_value sl AUDITREC_PID)
      let visit := atoi (sl_value sl AUDITREC_VISIT)
      let plate := atoi (sl_value sl AUDITREC_PLATE)
      let txn := audit_txn_key sl id visit plate
      let txn_id := if txn ≠ st.last_txn then st.txn_id + 1 else st.txn_id
      let last_txn := if txn ≠ st.last_txn then txn else st.last_txn
      let r := processConfigs excl sl id visit plate field rec_status txn_id
        cfgs st.tree
      ({ txn_id := txn_id, last_txn := last_txn, tree := r.1 }, r.2)

/-- The whole `process_input` loop over a list of audit records,
collecting every dispatch's transaction id in input order. -/
def processLines (excl : List Exclusion) (cfgs : List eSigConfig) :
    AuditState → List StringList → AuditState × List Nat
  | st, [] => (st, [])
  | st, sl :: rest =>
    let p := processLine excl cfgs st sl
    let q := processLines excl cfgs p.1 rest
    (q.1, p.2 ++ q.2)

theorem processConfigs_dispatch_eq (excl : List Exclusion)
    (sl : StringList) (id visit plate field rec_status : Int)
    (txn_id : Nat) :
    ∀ (cfgs : List eSigConfig) (tree : List eSigNode),
      ∀ d ∈ (processConfigs excl sl id visit plate field rec_status txn_id
        cfgs tree).2, d = txn_id := by
  intro cfgs
  induction cfgs with
  | nil => intro tree d hd; simp [processConfigs] at hd
  | cons esc rest ih =>
    intro tree d hd
    rw [processConfigs] at hd
    split at hd
    · rcases List.mem_cons.mp hd with rfl | hd'
      · rfl
      · exact ih _ d hd'
    · exact ih _ d hd

theorem processLine_txn (excl : List Exclusion) (cfgs : List eSigConfig)
    (st : AuditState) (sl : StringList) :
    st.txn_id ≤ (processLine excl cfgs st sl).1.txn_id ∧
    ∀ d ∈ (processLine excl cfgs st sl).2,
      d = (processLine excl cfgs st sl).1.txn_id := by
  rw [processLine]
  split
  · exact ⟨le_refl _, by intro d hd; simp at hd⟩
  · dsimp only
    split
    · exact ⟨le_refl _, by intro d hd; simp at hd⟩
    · constructor
      · show st.txn_id ≤ (if _ ≠ st.last_txn then st.txn_id + 1
          else st.txn_id)
        split <;> omega
      · intro d hd
        exact processConfigs_dispatch_eq excl sl _ _ _ _ _ _ cfgs st.tree d hd

theorem chain_le_of_all_eq (l : List Nat) (c : Nat)
    (h : ∀ d ∈ l, d = c) : List.Chain' (fun a b => a ≤ b) l := by
  induction l with
  | nil => exact List.chain'_nil
  | cons a l ih =>
    rw [List.chain'_cons']
    refine ⟨?_, ih (fun d hd => h d (List.mem_cons_of_mem a hd))⟩
    intro b hb
    have hb' : b ∈ l := by
      cases l with
      | nil => simp at hb
      | cons x xs =>
        have hbx : x = b := by simpa using hb
        rw [← hbx]
        exact List.mem_cons_self x xs
    rw [h a (List.mem_cons_self a l), h b (List.mem_cons_of_mem a hb')]

theorem processLines_chain (excl : List Exclusion)
    (cfgs : List eSigConfig) :
    ∀ (lines : List StringList) (st : AuditState),
      List.Chain' (fun a b => a ≤ b)
        ((processLines excl cfgs st lines).2) ∧
      st.txn_id ≤ (processLines excl cfgs st lines).1.txn_id ∧
      (∀ d ∈ (processLines excl cfgs st lines).2,
        st.txn_id ≤ d ∧ d ≤ (processLines excl cfgs st lines).1.txn_id) := by
  intro lines
  induction lines with
  | nil =>
    intro st
    exact ⟨List.chain'_nil, le_refl _,
      by intro d hd; simp [processLines] at hd⟩
  | cons sl rest ih =>
    intro st
    obtain ⟨hp_le, hp_eq⟩ := processLine_txn excl cfgs st sl
    obtain ⟨hq_chain, hq_le, hq_all⟩ := ih (processLine excl cfgs st sl).1
    have hps : processLines excl cfgs st (sl :: rest)
        = ((processLines excl cfgs (processLine excl cfgs st sl).1 rest).1,
           (processLine excl cfgs st sl).2
             ++ (processLines excl cfgs (processLine excl cfgs st sl).1
                  rest).2) := rfl
    rw [hps]
    refine ⟨?_, ?_, ?_⟩
    · rw [List.chain'_append]
      refine ⟨chain_le_of_all_eq _ _ hp_eq, hq_chain, ?_⟩
      intro x hx y hy
      have hx' : x = (processLine excl cfgs st sl).1.txn_id :=
        hp_eq x (mem_of_getLast?_some hx)
      have hy' : y ∈ (processLines excl cfgs
          (processLine excl cfgs st sl).1 rest).2 := by
        cases hc : (processLines excl cfgs
            (processLine excl cfgs st sl).1 rest).2 with
        | nil => rw [hc] at hy; simp at hy
        | cons z zs =>
          rw [hc] at hy
          have hyz : z = y := by simpa using hy
          rw [← hyz]
          exact List.mem_cons_self z zs
      rw [hx']
      exact (hq_all y hy').1
    · exact le_trans hp_le hq_le
    · intro d hd
      rcases List.mem_append.mp hd with hd' | hd'
      · rw [hp_eq d hd']
        exact ⟨hp_le, hq_le⟩
      · exact ⟨le_trans hp_le (hq_all d hd').1, (hq_all d hd').2⟩

/-- An audit record used by concrete counterexamples: a plain data
change by user `u1` on plate 11, field 12 (status 2, level 1). -/
def c4_line : StringList :=
  [some "d", some "20250101", some "120000", some "u1", some "1",
   some "1", some "11", some "0", some "x", some "2", some "1", some "1",
   none, none, some "a", some "b", some "12", some "D", none, none]

/-- C4 counterexample: two identical audit lines form one transaction —
both dispatches carry transaction id 1 — so the ids accompanying engine
dispatches are *not* strictly monotonic in input order. -/
theorem claim4_counterexample :
    (processLines [] [demo_config] init_audit_state [c4_line, c4_line]).2
      = [1, 1] ∧
    ¬ List.Chain' (fun a b => a < b)
      ((processLines [] [demo_config] init_audit_state
        [c4_line, c4_line]).2) := by
  constructor
  · decide
  · intro h
    rw [show (processLines [] [demo_config] init_audit_state
        [c4_line, c4_line]).2 = [1, 1] from by decide] at h
    rw [List.chain'_cons] at h
    exact absurd h.1 (by decide)

/-- C4 (amended): for every processed (non-skipped) audit line the
grouper composes the key `date|time|user|patient|visit|plate` and
increments the 64-bit transaction id exactly when this key differs from
the previous processed line's key; consequently the transaction ids
accompanying engine dispatches are non-decreasing in input order
(strictly increasing exactly across key changes, equal within one
transaction). -/
theorem claim4_txn_grouping_amended :
    (∀ (excl : List Exclusion) (cfgs : List eSigConfig) (st : AuditState)
        (sl : StringList),
      atoi (sl_value sl AUDITREC_FIELDREF) = 0 →
      ¬(atoi (sl_value sl AUDITREC_FIELDPOS) > 2 ∧
        atoi (sl_value sl AUDITREC_FIELDPOS) ≤ 7) →
      (processLine excl cfgs st sl).1.txn_id
        = (if audit_txn_key sl (atoi (sl_value sl AUDITREC_PID))
              (atoi (sl_value sl AUDITREC_VISIT))
              (atoi (sl_value sl AUDITREC_PLATE)) ≠ st.last_txn
           then st.txn_id + 1 else st.txn_id) ∧
      (∀ d ∈ (processLine excl cfgs st sl).2,
        d = (processLine excl cfgs st sl).1.txn_id)) ∧
    (∀ (excl : List Exclusion) (cfgs : List eSigConfig) (st : AuditState)
        (lines : List StringList),
      List.Chain' (fun a b => a ≤ b)
        ((processLines excl cfgs st lines).2)) := by
  constructor
  · intro excl cfgs st sl h1 h2
    constructor
    · rw [processLine]
      dsimp only
      rw [if_neg (fun hc => hc h1), if_neg h2]
    · exact (processLine_txn excl cfgs st sl).2
  · intro excl cfgs st lines
    exact (processLines_chain excl cfgs lines st).1

/-- C4 witness: the per-line key rule and the non-decreasing dispatch
ids, at the concrete two-line input. -/
theorem claim4_witness :
    ((processLine [] [demo_config] init_audit_state c4_line).1.txn_id
      = (if audit_txn_key c4_line (atoi (sl_value c4_line AUDITREC_PID))
            (atoi (sl_value c4_line AUDITREC_VISIT))
            (atoi (sl_value c4_line AUDITREC_PLATE))
            ≠ init_audit_state.last_txn
         then init_audit_state.txn_id + 1 else init_audit_state.txn_id) ∧
      (∀ d ∈ (processLine [] [demo_config] init_audit_state c4_line).2,
        d = (processLine [] [demo_config] init_audit_state
          c4_line).1.txn_id)) ∧
    List.Chain' (fun a b => a ≤ b)
      ((processLines [] [demo_config] init_audit_state
        [c4_line, c4_line]).2) :=
  ⟨claim4_txn_grouping_amended.1 [] [demo_config] init_audit_state c4_line
      (by decide) (by decide),
   claim4_txn_grouping_amended.2 [] [demo_config] init_audit_state
      [c4_line, c4_line]⟩

/-- The configuration for the C5 counterexample: signature plate 10 with
signature field 12, covering plate 10, all visits in scope. -/
def claim5_config : eSigConfig :=
  { plate := 10, ignore_fields := [], visits := [(0, 65535)]
    sig_plate := 10, n_sig_fields := 1, sig_fields := [(12, 12)]
    name := "B", serial := 2 }

/-- An audit line whose visit column is the non-numeric text `"abc"`. -/
def claim5_line : StringList :=
  [some "d", some "20250101", some "120000", some "u1", some "1",
   some "abc", some "10", some "0", some "x", some "1", some "1",
   some "1", none, none, none, some "xyz", some "12", some "Desc",
   none, none]

/-- C5 counterexample: a line with a non-numeric visit is *not* skipped —
`atoi` silently parses it as 0, `visit *` (which includes visit 0)
matches, and processing the line creates a signature-obligation node. -/
theorem claim5_counterexample :
    sl_value claim5_line AUDITREC_VISIT = "abc" ∧
    atoi (sl_value claim5_line AUDITREC_VISIT) = 0 ∧
    (processLine [] [claim5_config] init_audit_state
      claim5_line).1.tree ≠ [] := by
  refine ⟨rfl, by decide, by decide⟩

theorem processConfigs_no_match (excl : List Exclusion) (sl : StringList)
    (id visit plate field rec_status : Int) (txn_id : Nat) :
    ∀ (cfgs : List eSigConfig) (tree : List eSigNode),
      (∀ esc ∈ cfgs,
        (esc.plate == plate && rl_contains esc.visits visit
          && !rl_contains esc.ignore_fields field) = false) →
      processConfigs excl sl id visit plate field rec_status txn_id
        cfgs tree = (tree, []) := by
  intro cfgs
  induction cfgs with
  | nil => intro tree _; rfl
  | cons esc rest ih =>
    intro tree h
    rw [processConfigs,
      if_neg (by rw [h esc (List.mem_cons_self esc rest)]; simp)]
    exact ih tree (fun esc' h' => h esc' (List.mem_cons_of_mem esc h'))

theorem processConfigs_match_ne_nil (excl : List Exclusion)
    (sl : StringList) (id visit plate field rec_status : Int)
    (txn_id : Nat) :
    ∀ (cfgs : List eSigConfig) (tree : List eSigNode),
      (∃ esc ∈ cfgs,
        (esc.plate == plate && rl_contains esc.visits visit
          && !rl_contains esc.ignore_fields field) = true) →
      (processConfigs excl sl id visit plate field rec_status txn_id
        cfgs tree).2 ≠ [] := by
  intro cfgs
  induction cfgs with
  | nil =>
    intro tree h
    obtain ⟨esc, hmem, _⟩ := h
    exact absurd hmem (List.not_mem_nil esc)
  | cons esc0 rest ih =>
    intro tree h
    rw [processConfigs]
    by_cases hc : (esc0.plate == plate && rl_contains esc0.visits visit
        && !rl_contains esc0.ignore_fields field) = true
    · rw [if_pos hc]
      intro hx
      simp at hx
    · rw [if_neg hc]
      obtain ⟨esc, hmem, hcond⟩ := h
      rcases List.mem_cons.mp hmem with rfl | hmem'
      · exact absurd hcond hc
      · exact ih tree ⟨esc, hmem', hcond⟩

/-- C5 (amended): an audit line with a shape anomaly is not detected or
skipped as such — missing columns read as `""` and non-numeric numeric
fields parse to 0 via `atoi` — and the line is then processed like any
other.  It changes no signature-obligation node and produces no dispatch
exactly when it is filtered out (`fieldref ≠ 0`, `2 < fieldPos ≤ 7`) or
no configuration record applies to the defaulted plate/visit/field
values. -/
theorem claim5_skip_amended (excl : List Exclusion)
    (cfgs : List eSigConfig) (st : AuditState) (sl : StringList) :
    ((processLine excl cfgs st sl).1.tree = st.tree ∧
      (processLine excl cfgs st sl).2 = []) ↔
    (atoi (sl_value sl AUDITREC_FIELDREF) ≠ 0 ∨
      (atoi (sl_value sl AUDITREC_FIELDPOS) > 2 ∧
        atoi (sl_value sl AUDITREC_FIELDPOS) ≤ 7) ∨
      ∀ esc ∈ cfgs,
        (esc.plate == atoi (sl_value sl AUDITREC_PLATE)
          && rl_contains esc.visits (atoi (sl_value sl AUDITREC_VISIT))
          && !rl_contains esc.ignore_fields
              (atoi (sl_value sl AUDITREC_FIELDPOS))) = false) := by
  constructor
  · intro h
    by_cases h1 : atoi (sl_value sl AUDITREC_FIELDREF) ≠ 0
    · exact Or.inl h1
    · by_cases h2 : atoi (sl_value sl AUDITREC_FIELDPOS) > 2 ∧
          atoi (sl_value sl AUDITREC_FIELDPOS) ≤ 7
      · exact Or.inr (Or.inl h2)
      · refine Or.inr (Or.inr ?_)
        by_contra h3
        push_neg at h3
        obtain ⟨esc, hmem, hcond⟩ := h3
        have hcond' : (esc.plate == atoi (sl_value sl AUDITREC_PLATE)
            && rl_contains esc.visits (atoi (sl_value sl AUDITREC_VISIT))
            && !rl_contains esc.ignore_fields
                (atoi (sl_value sl AUDITREC_FIELDPOS))) = true := by
          cases hx : (esc.plate == atoi (sl_value sl AUDITREC_PLATE)
              && rl_contains esc.visits (atoi (sl_value sl AUDITREC_VISIT))
              && !rl_contains esc.ignore_fields
                  (atoi (sl_value sl AUDITREC_FIELDPOS))) with
          | false => exact absurd hx hcond
          | true => rfl
        have hne : (processLine excl cfgs st sl).2 ≠ [] := by
          rw [processLine]
          split
          · next hcc => exact absurd hcc h1
          · dsimp only
            split
            · next hcc => exact absurd hcc h2
            · exact processConfigs_match_ne_nil excl sl _ _ _ _ _ _
                cfgs st.tree ⟨esc, hmem, hcond'⟩
        exact hne h.2
  · intro h
    by_cases h1 : atoi (sl_value sl AUDITREC_FIELDREF) ≠ 0
    · rw [processLine, if_pos h1]
      exact ⟨rfl, rfl⟩
    · rcases h with h | h2 | h3
      · exact absurd h h1
      · rw [processLine, if_neg h1]
        dsimp only
        rw [if_pos h2]
        exact ⟨rfl, rfl⟩
      · rw [processLine]
        split
        · exact ⟨rfl, rfl⟩
        · dsimp only
          split
          · exact ⟨rfl, rfl⟩
          · rw [processConfigs_no_match excl sl _ _ _ _ _ _ cfgs st.tree h3]
            exact ⟨rfl, rfl⟩

/-- An audit line whose plate column (99) no configuration covers. -/
def claim5_other_line : StringList :=
  [some "d", some "20250101", some "120000", some "u1", some "1",
   some "1", some "99", some "0", some "x", some "1", some "1",
   some "1", none, none, none, some "xyz", some "12", some "Desc",
   none, none]

/-- C5 witness: the no-applying-record direction at a concrete line —
plate 99 matches no configuration record, so the tree is untouched and
nothing is dispatched. -/
theorem claim5_witness :
    (processLine [] [claim5_config] init_audit_state
      claim5_other_line).1.tree = init_audit_state.tree ∧
    (processLine [] [claim5_config] init_audit_state
      claim5_other_line).2 = [] :=
  (claim5_skip_amended [] [claim5_config] init_audit_state
    claim5_other_line).mpr (Or.inr (Or.inr (by decide)))

/-! ### The C2 counterexample: key collapse in the node tree

`esn_compare` keys nodes by patient, visit, signature plate and the
*minimum* signature field only, so two configuration blocks whose
signature-field sets share a minimum collapse onto one node, and
`process_input` then dispatches sign/unsign for fields of the *record's*
configuration against a node holding the *other* configuration. -/

/-- Configuration block A: covers plate 10, signature plate 10,
signature fields `{8}`. -/
def claim2_configA : eSigConfig :=
  { plate := 10, ignore_fields := [], visits := [(0, 65535)]
    sig_plate := 10, n_sig_fields := 1, sig_fields := [(8, 8)]
    name := "A", serial := 1 }

/-- Configuration block B: same coverage and signature plate, signature
fields `{8, 12}` (the grammar builds `fields 8,12` head-first as
`[(12,12),(8,8)]`, so `rl_min` is 8 for both blocks and the two blocks
share the node key `(1, 1, 10, 8)`). -/
def claim2_configB : eSigConfig :=
  { plate := 10, ignore_fields := [], visits := [(0, 65535)]
    sig_plate := 10, n_sig_fields := 2, sig_fields := [(12, 12), (8, 8)]
    name := "B", serial := 2 }

/-- A signing write to signature field 8 (non-empty new value). -/
def claim2_line1 : StringList :=
  [some "d", some "20250101", some "120000", some "u1", some "1",
   some "1", some "10", some "0", some "x", some "1", some "1",
   some "1", none, none, none, some "u1", some "8", some "Sig",
   none, none]

/-- A later record clearing field 12 (empty new value): block B
dispatches `esn_unsign(node, 12)` against the collapsed node, whose
slots come from block A and contain no field 12. -/
def claim2_line2 : StringList :=
  [some "d", some "20250101", some "130000", some "u1", some "1",
   some "1", some "10", some "0", some "x", some "1", some "1",
   some "1", none, none, none, none, some "12", some "Sig2",
   none, none]

/-- C2 counterexample: running `process_input` itself on the two lines
above with the two collapsing configuration blocks leaves a node with
`signatureStatus = SIG_INVALIDATED` (the slotless unsign for field 12
demoted it from `SIG_COMPLETE`) while every one of its `sigFields`
slots still has `completed = true`, so the claimed equivalence fails on
a reachable tree. -/
theorem claim2_counterexample :
    ¬ (∀ n ∈ (processLines [] [claim2_configA, claim2_configB]
        init_audit_state [claim2_line1, claim2_line2]).1.tree,
      (n.status.signatureStatus = SIG_COMPLETE ↔
        ∀ sf ∈ n.sig_fields, sf.completed = true)) := by
  decide
